import Mathlib

/-!
# Verification of the egret-vite pathfinding core

Shallow embedding of `src/game/AStar.ts` (hexagonal-grid A*) and of the
bucket-queue search variant in `src/game/interfaces/PathNode.ts`
(`Main.search` / `Main.createNodes`), together with proofs about the
properties stated in the specification.

Modelling conventions:

* JavaScript numbers are modelled as `Int` where the program only ever
  holds integers (coordinates, `g` costs, bucket costs) and as `ℚ` where
  halves arise (`h` and `f` values: `min(dx,dy)/2` is floating-point
  division in the source; all values occurring are exact multiples of
  `1/2`, far below 2^52, so IEEE doubles compute them exactly and `ℚ`
  is a faithful model).
* The obstacle container `SimpleSet<string>` stores keys of the form
  `"x,y"`.  The rendering `x ++ "," ++ y` is injective on integer pairs,
  so the set is modelled as a list of coordinate pairs.
* `openList` (array of `PathNode`) and `openSet` (map keyed by `"x,y"`)
  are kept in lock-step by the source (inserted and removed together,
  and a coordinate is only inserted when it is not already present), so
  both are modelled by the single list `open_`; lookup in `openSet` is
  lookup by coordinate in that list.
* The mutable `parent` back-pointer of a `PathNode` always points to a
  node that has already been moved to the closed set, and closed nodes
  are never mutated again.  The chain of parents is therefore frozen at
  the moment a pointer is written, and it is modelled by storing, in
  each node, the list of `(coordinate, g)` pairs that `buildPath` would
  produce by following the parents — exactly the data of the source's
  parent chain.
-/

deriving instance DecidableEq for Except

set_option maxRecDepth 40000

section Development

/- The rational operations of Batteries are `@[irreducible]`, which only
controls elaborator-side unfolding; making them semireducible again lets
`decide` evaluate concrete searches.  (The kernel is unaffected either way.) -/
attribute [local semireducible] Rat.add Rat.mul Rat.inv Rat.sub

/-- A grid coordinate, the integer pair `(x, y)`. -/
abbrev Coord := Int × Int

namespace AStar

/-- One search node: coordinate, `g` (cost from start), `h` (heuristic),
`f = g + h`, and the realised parent chain from the start node up to and
including this node, as the `(coordinate, g)` pairs `buildPath` yields. -/
structure Node where
  x : Int
  y : Int
  g : Int
  h : ℚ
  f : ℚ
  path : List (Coord × Int)
deriving Repr, DecidableEq

/-- The `AStar` object: map side length and obstacle set. -/
structure Grid where
  mapSize : Int
  obstacles : List Coord
deriving Repr, DecidableEq

/-- `constructor(mapSize, obstacles)`: rejects non-positive sizes. -/
def mkGrid (mapSize : Int) (obstacles : List Coord) : Except String Grid :=
  if mapSize ≤ 0 then .error "地图尺寸必须大于0"
  else .ok { mapSize := mapSize, obstacles := obstacles }

/-- `oddRowDirections`: the six neighbour offsets used when `y` is odd. -/
def oddRowDirections : List Coord :=
  [(0, -1), (1, -1), (1, 0), (1, 1), (0, 1), (-1, 0)]

/-- `evenRowDirections`: the six neighbour offsets used when `y` is even. -/
def evenRowDirections : List Coord :=
  [(-1, -1), (0, -1), (1, 0), (0, 1), (-1, 1), (-1, 0)]

/-- `isValidCoordinate`: the coordinate lies in `[0, mapSize)²`. -/
def isValidCoordinate (a : Grid) (x y : Int) : Bool :=
  0 ≤ x && x < a.mapSize && 0 ≤ y && y < a.mapSize

/-- `isValidPosition`: in bounds and not an obstacle. -/
def isValidPosition (a : Grid) (x y : Int) : Bool :=
  isValidCoordinate a x y && !(a.obstacles.contains (x, y))

/-- `calculateHeuristic`: `max(dx,dy) + min(dx,dy)/2` against the saved
end position. -/
def calculateHeuristic (endPos : Coord) (x y : Int) : ℚ :=
  let dx : Int := |x - endPos.1|
  let dy : Int := |y - endPos.2|
  (max dx dy : Int) + (min dx dy : Int) / 2

/-- `getNeighbors`, restricted to the coordinates it returns.  The source
builds placeholder `PathNode`s with `g = h = f = 0` and `parent = null`;
every field of a placeholder that is ever read is overwritten by the
caller first (in the undiscovered-neighbour branch), so only the
coordinates matter. -/
def getNeighbors (a : Grid) (node : Node) : List Coord :=
  let directions := if node.y % 2 ≠ 0 then oddRowDirections else evenRowDirections
  directions.filterMap fun dir =>
    let newX := node.x + dir.1
    let newY := node.y + dir.2
    if isValidPosition a newX newY then some (newX, newY) else none

/-- `getMinFNode`: linear scan keeping the first node whose `f` is
minimal (strict `<` comparison never displaces an equal minimum). -/
def getMinFNode : List Node → Node
  | [] => ⟨0, 0, 0, 0, 0, []⟩   -- unreachable: only called on a non-empty list
  | n :: t => t.foldl (fun minNode k => if k.f < minNode.f then k else minNode) n

/-- `removeFromOpenList`: splice out the first node with the same
coordinates. -/
def removeFromOpenList : List Node → Node → List Node
  | [], _ => []
  | n :: t, node =>
    if n.x = node.x ∧ n.y = node.y then t else n :: removeFromOpenList t node

/-- Replace the first node with the given coordinates (the in-place
mutation of the node found through `openSet.get`). -/
def updateFirst : List Node → Coord → Node → List Node
  | [], _, _ => []
  | n :: t, c, repl =>
    if n.x = c.1 ∧ n.y = c.2 then repl :: t else n :: updateFirst t c repl

/-- The body of `for (const neighbor of neighbors)`: skip closed
coordinates, otherwise create an undiscovered node (appended to the open
list) or improve a discovered one in place when `gScore < existing.g`. -/
def processNeighbor (endPos : Coord) (currentNode : Node)
    (closed : List Coord) (open_ : List Node) (neighbor : Coord) : List Node :=
  if closed.contains neighbor then open_
  else
    let gScore := currentNode.g + 1
    match open_.find? (fun n => n.x = neighbor.1 ∧ n.y = neighbor.2) with
    | none =>
      let h := calculateHeuristic endPos neighbor.1 neighbor.2
      open_ ++ [{ x := neighbor.1, y := neighbor.2, g := gScore, h := h,
                  f := gScore + h, path := currentNode.path ++ [(neighbor, gScore)] }]
    | some existingNode =>
      if gScore < existingNode.g then
        updateFirst open_ neighbor
          { existingNode with g := gScore, f := (gScore : ℚ) + existingNode.h,
                              path := currentNode.path ++ [(neighbor, gScore)] }
      else open_

/-- The `while (openList.length > 0)` loop, by fuel.  `none` means the
fuel ran out (shown never to happen for the fuel used by `findPath`);
`some none` is the source's `return null`; `some (some p)` is
`return this.buildPath(currentNode)`, whose result is the stored chain. -/
def searchLoop (a : Grid) (endPos : Coord) :
    ℕ → List Node → List Coord → Option (Option (List (Coord × Int)))
  | 0, _, _ => none
  | _ + 1, [], _ => some none
  | fuel + 1, op@(_ :: _), closed =>
    let currentNode := getMinFNode op
    if currentNode.x = endPos.1 ∧ currentNode.y = endPos.2 then
      some (some currentNode.path)
    else
      let op' := removeFromOpenList op currentNode
      let closed' := closed ++ [(currentNode.x, currentNode.y)]
      let neighbors := getNeighbors a currentNode
      let op'' := neighbors.foldl (processNeighbor endPos currentNode closed') op'
      searchLoop a endPos fuel op'' closed'

/-- The node seeded for the start coordinate. -/
def startNode (endPos : Coord) (s : Coord) : Node :=
  let h := calculateHeuristic endPos s.1 s.2
  { x := s.1, y := s.2, g := 0, h := h, f := 0 + h, path := [(s, 0)] }

/-- Fuel sufficient for the main loop (proved below): one iteration per
closable coordinate plus the final one. -/
def loopFuel (a : Grid) : ℕ := a.mapSize.toNat * a.mapSize.toNat + 1

/-- `findPath(start, end)`.  `Except.error` models a thrown `Error`;
`.ok none` is the `null` no-path result; `.ok (some p)` is a found path
(as `(coordinate, g)` pairs).  All four validations happen at entry,
before any search state exists. -/
def findPath (a : Grid) (s e : Coord) : Except String (Option (List (Coord × Int))) :=
  if ¬ isValidCoordinate a s.1 s.2 then .error "起点坐标无效"
  else if ¬ isValidCoordinate a e.1 e.2 then .error "终点坐标无效"
  else if a.obstacles.contains s then .error "起点不能是障碍物"
  else if a.obstacles.contains e then .error "终点不能是障碍物"
  else
    .ok ((searchLoop a e (loopFuel a) [startNode e s] []).getD none)

end AStar

namespace AStar

/-- The coordinate of a node. -/
def Node.coord (n : Node) : Coord := (n.x, n.y)

/-- A throwaway node carrying only a coordinate, for querying
`getNeighbors` (which reads nothing but `x` and `y`). -/
def coordNode (c : Coord) : Node := ⟨c.1, c.2, 0, 0, 0, []⟩

/-- The valid neighbours of a coordinate under the parity-dependent
hexagonal adjacency rule. -/
def neighbors (a : Grid) (c : Coord) : List Coord :=
  getNeighbors a (coordNode c)

/-- The chain condition of a coordinate list: each consecutive pair is
adjacent under the hexagonal rule of the earlier cell. -/
def chainOk (a : Grid) : List Coord → Bool
  | [] => true
  | [_] => true
  | c :: d :: t => (neighbors a c).contains d && chainOk a (d :: t)

/-- A valid hexagonal path: every stop is in bounds and obstacle-free,
and consecutive stops are adjacent. -/
def isHexPath (a : Grid) (l : List Coord) : Bool :=
  l.all (fun c => isValidPosition a c.1 c.2) && chainOk a l

/-- All coordinates reachable from `s` in at most `n` steps of the
hexagonal adjacency — exhaustive breadth-first expansion, the ground
truth for shortest step counts. -/
def reachIter (a : Grid) (s : Coord) : ℕ → List Coord
  | 0 => [s]
  | n + 1 =>
    let prev := reachIter a s n
    (prev ++ prev.flatMap (neighbors a)).dedup

end AStar

-- Spec §8 example: mapSize=3, no obstacles, (0,0) → (2,0): 3 coordinates, 2 steps.
example :
    AStar.findPath ⟨3, []⟩ (0, 0) (2, 0) =
      .ok (some [((0, 0), 0), ((1, 0), 1), ((2, 0), 2)]) := by decide

/-- C1: the claim states that `h(p) = max(dx,dy) + min(dx,dy)/2` never
exceeds the true minimum step count under the parity-dependent hexagonal
adjacency.  The code contradicts its own documentation ("不会高估实际代价",
does not overestimate): from p = (1,2) to end = (0,0) on an obstacle-free
3×3 grid the true minimum is 2 steps (reachable in 2, not in 1), while
`calculateHeuristic` yields 5/2 > 2. -/
theorem calculateHeuristic_overestimates :
    AStar.calculateHeuristic (0, 0) 1 2 = 5/2 ∧
    ((0, 0) : Coord) ∈ AStar.reachIter ⟨3, []⟩ (1, 2) 2 ∧
    ((0, 0) : Coord) ∉ AStar.reachIter ⟨3, []⟩ (1, 2) 1 ∧
    (2 : ℚ) < 5/2 := by
  refine ⟨by decide, by decide, by decide, by decide⟩

/-- C2: the claim states that a returned path's edge count always equals
the true shortest path length (as established by exhaustive breadth-first
search).  On the 6×6 grid with obstacles (3,3), (4,2), (4,4), from (5,5)
to (1,0), `findPath` returns a 9-node path (8 edges), while (1,0) is
reachable from (5,5) in 7 steps and not in 6 — the true shortest length
is 7.  An explicit valid 7-edge hexagonal path witnesses reachability. -/
theorem findPath_returns_suboptimal_path :
    AStar.findPath ⟨6, [(3, 3), (4, 2), (4, 4)]⟩ (5, 5) (1, 0) =
      .ok (some [((5, 5), 0), ((5, 4), 1), ((4, 3), 2), ((5, 2), 3), ((4, 1), 4),
                 ((3, 1), 5), ((2, 1), 6), ((2, 0), 7), ((1, 0), 8)]) ∧
    AStar.isHexPath ⟨6, [(3, 3), (4, 2), (4, 4)]⟩
      [(5, 5), (4, 5), (3, 5), (3, 4), (2, 3), (2, 2), (1, 1), (1, 0)] = true ∧
    ((1, 0) : Coord) ∈ AStar.reachIter ⟨6, [(3, 3), (4, 2), (4, 4)]⟩ (5, 5) 7 ∧
    ((1, 0) : Coord) ∉ AStar.reachIter ⟨6, [(3, 3), (4, 2), (4, 4)]⟩ (5, 5) 6 := by
  refine ⟨by decide, by decide, by decide, by decide⟩

/-- C4: the constructor fails exactly for `mapSize ≤ 0`, and `findPath`
throws exactly when start or end is out of bounds or an obstacle — every
check happens in the entry validations, and for all other inputs the
call returns normally (`.ok`), with the exhausted-frontier result being
the normal value `null` (`.ok none`), never an error. -/
theorem findPath_error_characterisation :
    (∀ (sz : Int) (obst : List Coord),
        (∃ msg, AStar.mkGrid sz obst = .error msg) ↔ sz ≤ 0) ∧
    ∀ (a : AStar.Grid) (s e : Coord),
      ((∃ msg, AStar.findPath a s e = .error msg) ↔
        (AStar.isValidCoordinate a s.1 s.2 = false ∨
         AStar.isValidCoordinate a e.1 e.2 = false ∨
         s ∈ a.obstacles ∨ e ∈ a.obstacles)) ∧
      ((∃ r, AStar.findPath a s e = .ok r) ↔
        (AStar.isValidCoordinate a s.1 s.2 = true ∧
         AStar.isValidCoordinate a e.1 e.2 = true ∧
         s ∉ a.obstacles ∧ e ∉ a.obstacles)) := by
  refine ⟨fun sz obst => ?_, fun a s e => ⟨?_, ?_⟩⟩
  · unfold AStar.mkGrid
    split <;> simp_all
  · by_cases h1 : AStar.isValidCoordinate a s.1 s.2 <;>
      by_cases h2 : AStar.isValidCoordinate a e.1 e.2 <;>
      by_cases h3 : s ∈ a.obstacles <;>
      by_cases h4 : e ∈ a.obstacles <;>
      simp [AStar.findPath, h1, h2, h3, h4]
  · by_cases h1 : AStar.isValidCoordinate a s.1 s.2 <;>
      by_cases h2 : AStar.isValidCoordinate a e.1 e.2 <;>
      by_cases h3 : s ∈ a.obstacles <;>
      by_cases h4 : e ∈ a.obstacles <;>
      simp [AStar.findPath, h1, h2, h3, h4]

/-- C5: for a valid coordinate that is not an obstacle, searching from a
cell to itself returns the single-node path containing that coordinate
with accumulated cost `g = 0`: the start node (seeded with `g = 0`) is
the first minimum-`f` node popped, and it already equals the end. -/
theorem findPath_start_eq_end (a : AStar.Grid) (s : Coord)
    (hs : AStar.isValidCoordinate a s.1 s.2 = true) (hobs : s ∉ a.obstacles) :
    AStar.findPath a s s = .ok (some [(s, 0)]) := by
  unfold AStar.findPath
  rw [if_neg (by simp [hs]), if_neg (by simp [hs]), if_neg (by simp [hobs]),
      if_neg (by simp [hobs])]
  unfold AStar.loopFuel
  rw [AStar.searchLoop]
  simp [AStar.getMinFNode, AStar.startNode]

/-- The linear scan of `getMinFNode`, on a non-empty list written as a
cons: it returns the first element attaining the minimal `f`. -/
theorem getMinFNode_cons_first_min (n : AStar.Node) (t : List AStar.Node) :
    ∃ (i : ℕ) (hi : i < (n :: t).length),
      AStar.getMinFNode (n :: t) = (n :: t).get ⟨i, hi⟩ ∧
      (∀ (j : ℕ) (hj : j < (n :: t).length),
        ((n :: t).get ⟨i, hi⟩).f ≤ ((n :: t).get ⟨j, hj⟩).f) ∧
      (∀ (j : ℕ) (hj : j < (n :: t).length), j < i →
        ((n :: t).get ⟨i, hi⟩).f < ((n :: t).get ⟨j, hj⟩).f) := by
  induction t generalizing n with
  | nil =>
    refine ⟨0, by simp, rfl, ?_, ?_⟩
    · intro j hj
      have hj0 : j = 0 := by simpa using hj
      subst hj0
      simp
    · intro j hj hji
      omega
  | cons k t ih =>
    by_cases hk : k.f < n.f
    · obtain ⟨i, hi, heq, hle, hlt⟩ := ih k
      refine ⟨i + 1, by simpa using hi, ?_, ?_, ?_⟩
      · rw [show AStar.getMinFNode (n :: k :: t) =
              (k :: t).foldl (fun m j => if j.f < m.f then j else m) n from rfl]
        rw [List.foldl_cons, if_pos hk]
        exact heq
      · intro j hj
        match j with
        | 0 =>
          simpa using le_of_lt (lt_of_le_of_lt (by simpa using hle 0 (by simp)) hk)
        | j + 1 =>
          simpa using hle j (by simpa using hj)
      · intro j hj hji
        match j with
        | 0 =>
          simpa using lt_of_le_of_lt (by simpa using hle 0 (by simp)) hk
        | j + 1 =>
          have := hlt j (by simpa using hj) (by omega)
          simpa using this
    · obtain ⟨i, hi, heq, hle, hlt⟩ := ih n
      have hstep : AStar.getMinFNode (n :: k :: t) =
          t.foldl (fun m j => if j.f < m.f then j else m) n := by
        rw [show AStar.getMinFNode (n :: k :: t) =
              (k :: t).foldl (fun m j => if j.f < m.f then j else m) n from rfl]
        rw [List.foldl_cons, if_neg hk]
      have hnk : n.f ≤ k.f := le_of_not_lt hk
      match i, hi with
      | 0, _ =>
        refine ⟨0, by simp, ?_, ?_, ?_⟩
        · rw [hstep]
          simpa using heq
        · intro j hj
          match j with
          | 0 => simp
          | 1 => simpa using hnk
          | j + 2 =>
            have := hle (j + 1) (by simpa using hj)
            simpa using this
        · intro j hj hji
          omega
      | i + 1, hi =>
        have hin : ((n :: t).get ⟨i + 1, hi⟩).f < n.f := by
          simpa using hlt 0 (by simp) (by omega)
        refine ⟨i + 2, by simpa using hi, ?_, ?_, ?_⟩
        · rw [hstep]
          simpa using heq
        · intro j hj
          match j with
          | 0 => simpa using le_of_lt hin
          | 1 => simpa using le_of_lt (lt_of_lt_of_le hin hnk)
          | j + 2 =>
            have := hle (j + 1) (by simpa using hj)
            simpa using this
        · intro j hj hji
          match j with
          | 0 => simpa using hin
          | 1 => simpa using lt_of_lt_of_le hin hnk
          | j + 2 =>
            have := hlt (j + 1) (by simpa using hj) (by omega)
            simpa using this

/-- The first-minimum property for any non-empty open list. -/
theorem getMinFNode_first_min (l : List AStar.Node) (hl : l ≠ []) :
    ∃ (i : ℕ) (hi : i < l.length),
      AStar.getMinFNode l = l.get ⟨i, hi⟩ ∧
      (∀ (j : ℕ) (hj : j < l.length), (l.get ⟨i, hi⟩).f ≤ (l.get ⟨j, hj⟩).f) ∧
      (∀ (j : ℕ) (hj : j < l.length), j < i → (l.get ⟨i, hi⟩).f < (l.get ⟨j, hj⟩).f) := by
  match l with
  | [] => exact absurd rfl hl
  | n :: t => exact getMinFNode_cons_first_min n t

/-- C7: `findPath` is deterministic — identical grid, start and end give
identical results — and ties in the minimum-`f` selection are broken by
earliest insertion order: the scan keeps the first-seen minimum and never
displaces it on equal `f`. -/
theorem findPath_deterministic :
    (∀ (a a' : AStar.Grid) (s s' e e' : Coord),
        a = a' → s = s' → e = e' → AStar.findPath a s e = AStar.findPath a' s' e') ∧
    (∀ (l : List AStar.Node), l ≠ [] →
      ∃ (i : ℕ) (hi : i < l.length),
        AStar.getMinFNode l = l.get ⟨i, hi⟩ ∧
        (∀ (j : ℕ) (hj : j < l.length), (l.get ⟨i, hi⟩).f ≤ (l.get ⟨j, hj⟩).f) ∧
        (∀ (j : ℕ) (hj : j < l.length), j < i → (l.get ⟨i, hi⟩).f < (l.get ⟨j, hj⟩).f)) := by
  refine ⟨?_, getMinFNode_first_min⟩
  intro a a' s s' e e' ha hs he
  subst ha; subst hs; subst he
  rfl

/-- Witness for C5 at a concrete input: `mapSize = 3`, no obstacles,
start = end = (1,1). -/
theorem findPath_start_eq_end_witness :
    AStar.findPath ⟨3, []⟩ (1, 1) (1, 1) = .ok (some [((1, 1), 0)]) :=
  findPath_start_eq_end ⟨3, []⟩ (1, 1) (by decide) (by decide)

/-- Witness for C7 at concrete inputs, including a two-node open list
with equal `f` values on which the scan keeps the earlier node. -/
theorem findPath_deterministic_witness :
    (AStar.findPath ⟨3, []⟩ (0, 0) (2, 2) = AStar.findPath ⟨3, []⟩ (0, 0) (2, 2)) ∧
    ∃ (i : ℕ) (hi : i < ([⟨0, 0, 0, 1, 1, []⟩, ⟨1, 1, 0, 1, 1, []⟩] : List AStar.Node).length),
      AStar.getMinFNode [⟨0, 0, 0, 1, 1, []⟩, ⟨1, 1, 0, 1, 1, []⟩] =
        ([⟨0, 0, 0, 1, 1, []⟩, ⟨1, 1, 0, 1, 1, []⟩] : List AStar.Node).get ⟨i, hi⟩ ∧
      (∀ (j : ℕ) (hj : j < ([⟨0, 0, 0, 1, 1, []⟩, ⟨1, 1, 0, 1, 1, []⟩] : List AStar.Node).length),
        (([⟨0, 0, 0, 1, 1, []⟩, ⟨1, 1, 0, 1, 1, []⟩] : List AStar.Node).get ⟨i, hi⟩).f ≤
          (([⟨0, 0, 0, 1, 1, []⟩, ⟨1, 1, 0, 1, 1, []⟩] : List AStar.Node).get ⟨j, hj⟩).f) ∧
      (∀ (j : ℕ) (hj : j < ([⟨0, 0, 0, 1, 1, []⟩, ⟨1, 1, 0, 1, 1, []⟩] : List AStar.Node).length),
        j < i →
        (([⟨0, 0, 0, 1, 1, []⟩, ⟨1, 1, 0, 1, 1, []⟩] : List AStar.Node).get ⟨i, hi⟩).f <
          (([⟨0, 0, 0, 1, 1, []⟩, ⟨1, 1, 0, 1, 1, []⟩] : List AStar.Node).get ⟨j, hj⟩).f) :=
  ⟨findPath_deterministic.1 ⟨3, []⟩ ⟨3, []⟩ (0, 0) (0, 0) (2, 2) (2, 2) rfl rfl rfl,
   findPath_deterministic.2 [⟨0, 0, 0, 1, 1, []⟩, ⟨1, 1, 0, 1, 1, []⟩] (by decide)⟩

/-!
## The bucket-queue variant (`Main` in `PathNode.ts`)

`createNodes` builds, for every cell of a `w × h` board, the list of
adjacent passable cells (`data[target] == 0`), in the order: left,
right, up, up-right, down, down-right.  `search` runs a bucket-queue
best-first search over that graph with the Manhattan estimate
`get_cost`, a ring of exactly four buckets indexed by `f - base_cost`,
LIFO `pop` within a bucket, and generation-token visitation.

Modelling notes:

* `MapNode` identity is its coordinate; the per-search mutable fields
  (`token`, `cost`, `prev`) are modelled as an insertion-ordered
  association list `visited` from coordinates to entries.  A coordinate
  is stamped (`token` raised) exactly when it gains an entry.  The start
  node is *not* stamped initially (the source never touches
  `start.token`), so it can be re-discovered — faithfully modelled.
* As with the A* embedding, `prev` pointers are frozen once written, so
  each entry stores the list the return loop `while (cur.prev &&
  cur.prev != start)` would produce: the cell itself followed by the
  `prev` chain, stopping before `start`.
* `opens[idx].push(i)` for `idx` outside `0..3` dereferences `undefined`
  and throws a `TypeError`; this is the `.error ()` outcome.
-/

namespace Main

/-- `get_cost`: the Manhattan estimate `|ex-sx| + |ey-sy|`. -/
def get_cost (start_x start_y end_x end_y : Int) : Int :=
  |end_x - start_x| + |end_y - start_y|

/-- The adjacency lists built by `createNodes`: left, right, up,
up-right, down, down-right, each present iff in range and the target
cell is passable. -/
def nodeNeighbors (w h : Int) (blocked : List Coord) (c : Coord) : List Coord :=
  (if 0 < c.1 ∧ ¬ blocked.contains (c.1 - 1, c.2) then [(c.1 - 1, c.2)] else []) ++
  (if c.1 < w - 1 ∧ ¬ blocked.contains (c.1 + 1, c.2) then [(c.1 + 1, c.2)] else []) ++
  (if 0 < c.2 ∧ ¬ blocked.contains (c.1, c.2 - 1) then [(c.1, c.2 - 1)] else []) ++
  (if 0 < c.2 ∧ c.1 < w - 1 ∧ ¬ blocked.contains (c.1 + 1, c.2 - 1)
    then [(c.1 + 1, c.2 - 1)] else []) ++
  (if c.2 < h - 1 ∧ ¬ blocked.contains (c.1, c.2 + 1) then [(c.1, c.2 + 1)] else []) ++
  (if c.2 < h - 1 ∧ c.1 < w - 1 ∧ ¬ blocked.contains (c.1 + 1, c.2 + 1)
    then [(c.1 + 1, c.2 + 1)] else [])

/-- The per-search state of a stamped `MapNode`: its `cost` and the
realised `prev` chain (the cell itself, then predecessors, stopping
before `start`). -/
structure BEntry where
  cost : Int
  rpath : List Coord
deriving Repr, DecidableEq

/-- Mutable node state of an arbitrary cell: the stamped entry if the
cell carries this search's token, else the initial field values
(`cost = 0`; an undefined `prev` makes the return loop stop at once). -/
def lookupEntry (visited : List (Coord × BEntry)) (c : Coord) : BEntry :=
  match visited.find? (fun p => p.1 = c) with
  | some p => p.2
  | none => { cost := 0, rpath := [c] }

/-- The four-bucket ring `opens`. -/
structure BOpens where
  b0 : List Coord
  b1 : List Coord
  b2 : List Coord
  b3 : List Coord
deriving Repr, DecidableEq

/-- `opens[idx].push(c)`: `none` models the `TypeError` thrown when
`idx` lies outside the ring. -/
def pushSlot (o : BOpens) (idx : Int) (c : Coord) : Option BOpens :=
  if idx = 0 then some { o with b0 := o.b0 ++ [c] }
  else if idx = 1 then some { o with b1 := o.b1 ++ [c] }
  else if idx = 2 then some { o with b2 := o.b2 ++ [c] }
  else if idx = 3 then some { o with b3 := o.b3 ++ [c] }
  else none

/-- The `for (let i of cur.nodes)` loop: stamp each unvisited neighbour,
record `cost` and `prev`, and push it into bucket
`get_cost(i, end) + i.cost - base_cost`. -/
def expandNeighbors (start endc cur : Coord) (curCost : Int) (curRpath : List Coord)
    (base : Int) :
    List Coord → BOpens → List (Coord × BEntry) →
      Except Unit (BOpens × List (Coord × BEntry))
  | [], o, v => .ok (o, v)
  | i :: rest, o, v =>
    if (v.find? (fun p => p.1 = i)).isSome then
      expandNeighbors start endc cur curCost curRpath base rest o v
    else
      let cost := curCost + 1
      let rpath := i :: (if cur = start then [] else curRpath)
      let idx := get_cost i.1 i.2 endc.1 endc.2 + cost - base
      match pushSlot o idx i with
      | none => .error ()
      | some o2 =>
        expandNeighbors start endc cur curCost curRpath base rest o2
          (v ++ [(i, ⟨cost, rpath⟩)])

/-- The `while (true)` loop of `search`, by fuel.  `some (.ok none)` is
`return null`; `some (.ok (some p))` is the reverse path returned on
reaching the goal; `some (.error ())` is the out-of-ring `TypeError`;
`none` means the fuel ran out. -/
def searchLoop (w h : Int) (blocked : List Coord) (start endc : Coord) :
    ℕ → BOpens → Int → List (Coord × BEntry) →
      Option (Except Unit (Option (List Coord)))
  | 0, _, _, _ => none
  | fuel + 1, o, base, v =>
    if o.b0.isEmpty ∧ o.b1.isEmpty ∧ o.b2.isEmpty ∧ o.b3.isEmpty then
      some (.ok none)
    else
      match o.b0.getLast? with
      | some cur =>
        let o2 : BOpens := { o with b0 := o.b0.dropLast }
        if cur = endc then
          some (.ok (some (lookupEntry v cur).rpath))
        else
          let e := lookupEntry v cur
          match expandNeighbors start endc cur e.cost e.rpath base
              (nodeNeighbors w h blocked cur) o2 v with
          | .error _ => some (.error ())
          | .ok (o3, v2) => searchLoop w h blocked start endc fuel o3 base v2
      | none =>
        searchLoop w h blocked start endc fuel ⟨o.b1, o.b2, o.b3, []⟩ (base + 1) v

/-- `search(start, end)` on the `createNodes` graph of a `w × h` board,
with the given iteration budget. -/
def search (w h : Int) (blocked : List Coord) (start endc : Coord) (fuel : ℕ) :
    Option (Except Unit (Option (List Coord))) :=
  searchLoop w h blocked start endc fuel ⟨[start], [], [], []⟩
    (get_cost start.1 start.2 endc.1 endc.2) []

end Main

-- The demo-like scenario works: 5×5 free board, (4,4) → (0,0).
example :
    Main.search 5 5 [] (4, 4) (0, 0) 60 =
      some (.ok (some [(0, 0), (1, 0), (2, 0), (3, 0), (4, 0), (4, 1), (4, 2), (4, 3)])) := by
  decide

namespace Main

/-- The reverse-chain condition: each element of the list is among the
`createNodes` neighbours of its successor (it was discovered from it). -/
def revChainOk (G : Coord → List Coord) : List Coord → Bool
  | [] => true
  | [_] => true
  | c :: d :: t => (G d).contains c && revChainOk G (d :: t)

/-- Membership in any of the four buckets. -/
def inBuckets (o : BOpens) (c : Coord) : Prop :=
  c ∈ o.b0 ∨ c ∈ o.b1 ∨ c ∈ o.b2 ∨ c ∈ o.b3

/-- The properties of a stamped entry: its reverse path starts at its
own cell, follows discovery links back to `start`, and omits `start`
itself (unless the entry is a re-stamped start node). -/
def EntryOk (G : Coord → List Coord) (start : Coord) (p : Coord × BEntry) : Prop :=
  p.2.rpath.head? = some p.1 ∧
  revChainOk G (p.2.rpath ++ [start]) = true ∧
  (p.1 ≠ start → start ∉ p.2.rpath)

/-- Search-state invariant: bucket members are the start or stamped, and
every stamped entry is well-formed. -/
def BInv (G : Coord → List Coord) (start : Coord) (o : BOpens)
    (v : List (Coord × BEntry)) : Prop :=
  (∀ c, inBuckets o c → c = start ∨ (v.find? (fun p => p.1 = c)).isSome = true) ∧
  (∀ p ∈ v, EntryOk G start p)

theorem pushSlot_mem {o : BOpens} {idx : Int} {i : Coord} {o2 : BOpens}
    (h : pushSlot o idx i = some o2) :
    ∀ c, inBuckets o2 c → inBuckets o c ∨ c = i := by
  intro c hc
  unfold pushSlot at h
  split_ifs at h <;> cases h <;>
    simp only [inBuckets, List.mem_append, List.mem_singleton] at hc ⊢ <;> tauto

theorem find?_mono {v : List (Coord × BEntry)} {vnew : List (Coord × BEntry)} {c : Coord}
    (h : (v.find? (fun p => p.1 = c)).isSome = true) :
    ((v ++ vnew).find? (fun p => p.1 = c)).isSome = true := by
  rw [List.find?_append]
  cases hf : v.find? (fun p => p.1 = c) with
  | none => rw [hf] at h; exact absurd h (by simp)
  | some p => simp [Option.or]

theorem expandNeighbors_preserves (G : Coord → List Coord) (start endc cur : Coord)
    (curCost : Int) (curRpath : List Coord) (base : Int)
    (hcur : cur = start ∨ (curRpath.head? = some cur ∧
      revChainOk G (curRpath ++ [start]) = true ∧ start ∉ curRpath)) :
    ∀ (ns : List Coord) (o : BOpens) (v : List (Coord × BEntry)),
      (∀ i ∈ ns, i ∈ G cur) →
      (∀ p ∈ v, EntryOk G start p) →
      (∀ c, inBuckets o c → c = start ∨ (v.find? (fun p => p.1 = c)).isSome = true) →
      ∀ o2 v2,
        expandNeighbors start endc cur curCost curRpath base ns o v = .ok (o2, v2) →
        (∀ p ∈ v2, EntryOk G start p) ∧
        (∀ c, inBuckets o2 c → c = start ∨ (v2.find? (fun p => p.1 = c)).isSome = true) := by
  intro ns
  induction ns with
  | nil =>
    intro o v _ hv ho o2 v2 h
    unfold expandNeighbors at h
    cases h
    exact ⟨hv, ho⟩
  | cons i rest ih =>
    intro o v hns hv ho o2 v2 h
    unfold expandNeighbors at h
    by_cases hstamped : (v.find? (fun p => p.1 = i)).isSome = true
    · rw [if_pos hstamped] at h
      exact ih o v (fun j hj => hns j (List.mem_cons_of_mem _ hj)) hv ho o2 v2 h
    · rw [if_neg hstamped] at h
      dsimp only at h
      cases hpush : pushSlot o (get_cost i.1 i.2 endc.1 endc.2 + (curCost + 1) - base) i with
      | none => rw [hpush] at h; exact absurd h (by simp)
      | some o3 =>
        rw [hpush] at h
        have hnewEntry :
            EntryOk G start
              (i, ⟨curCost + 1, i :: (if cur = start then [] else curRpath)⟩) := by
          constructor
          · simp [BEntry.rpath]
          constructor
          · by_cases hcs : cur = start
            · simp only [if_pos hcs, List.nil_append, List.cons_append]
              have hig : i ∈ G cur := hns i (List.mem_cons_self i rest)
              rw [hcs] at hig
              simp [revChainOk, hig]
            · rcases hcur with h1 | ⟨hhead, hchain, _⟩
              · exact absurd h1 hcs
              · simp only [if_neg hcs]
                rcases hcr : curRpath with _ | ⟨d, t⟩
                · rw [hcr] at hhead; exact absurd hhead (by simp)
                · rw [hcr] at hhead hchain
                  have hd : d = cur := by simpa using hhead
                  have hig : i ∈ G cur := hns i (List.mem_cons_self i rest)
                  rw [← hd] at hig
                  simp only [List.cons_append] at hchain ⊢
                  simp [revChainOk, hig, hchain]
          · intro hne hmem
            simp only [List.mem_cons] at hmem
            rcases hmem with h1 | h1
            · exact hne h1.symm
            · by_cases hcs : cur = start
              · rw [if_pos hcs] at h1; simp at h1
              · rw [if_neg hcs] at h1
                rcases hcur with h2 | ⟨_, _, hnostart⟩
                · exact hcs h2
                · exact hnostart h1
        refine ih o3 (v ++ [(i, ⟨curCost + 1, i :: (if cur = start then [] else curRpath)⟩)])
          (fun j hj => hns j (List.mem_cons_of_mem _ hj)) ?_ ?_ o2 v2 h
        · intro p hp
          rcases List.mem_append.mp hp with h1 | h1
          · exact hv p h1
          · simp only [List.mem_singleton] at h1
            rw [h1]
            exact hnewEntry
        · intro c hc
          rcases pushSlot_mem hpush c hc with h1 | h1
          · rcases ho c h1 with h2 | h2
            · exact Or.inl h2
            · exact Or.inr (find?_mono h2)
          · refine Or.inr ?_
            rw [List.find?_append]
            cases hf : v.find? (fun p => p.1 = c) with
            | some p => simp [Option.or]
            | none =>
              subst h1
              simp [Option.or]

theorem searchLoop_characterisation (w h : Int) (blocked : List Coord)
    (start endc : Coord) (hne : start ≠ endc) :
    ∀ (fuel : ℕ) (o : BOpens) (base : Int) (v : List (Coord × BEntry)),
      BInv (nodeNeighbors w h blocked) start o v →
      ∀ r, searchLoop w h blocked start endc fuel o base v = some r →
        r = .error () ∨ r = .ok none ∨
        ∃ p, r = .ok (some p) ∧ p.head? = some endc ∧ start ∉ p ∧
          revChainOk (nodeNeighbors w h blocked) (p ++ [start]) = true := by
  intro fuel
  induction fuel with
  | zero =>
    intro o base v _ r hr
    exact absurd hr (by simp [searchLoop])
  | succ fuel ih =>
    intro o base v hinv r hr
    unfold searchLoop at hr
    by_cases hempty : o.b0.isEmpty ∧ o.b1.isEmpty ∧ o.b2.isEmpty ∧ o.b3.isEmpty
    · rw [if_pos hempty] at hr
      cases hr
      exact Or.inr (Or.inl rfl)
    · rw [if_neg hempty] at hr
      cases hlast : o.b0.getLast? with
      | none =>
        rw [hlast] at hr
        refine ih _ _ _ ⟨?_, hinv.2⟩ r hr
        intro c hc
        refine hinv.1 c ?_
        rcases hc with hc | hc | hc | hc
        · exact Or.inr (Or.inl hc)
        · exact Or.inr (Or.inr (Or.inl hc))
        · exact Or.inr (Or.inr (Or.inr hc))
        · exact absurd hc (by simp)
      | some cur =>
        rw [hlast] at hr
        dsimp only at hr
        have hmem : inBuckets o cur := Or.inl (List.mem_of_getLast?_eq_some hlast)
        by_cases hcure : cur = endc
        · rw [if_pos hcure] at hr
          cases hr
          rcases hinv.1 cur hmem with h1 | h1
          · exact absurd (h1 ▸ hcure) hne
          · cases hf : v.find? (fun p => p.1 = cur) with
            | none => rw [hf] at h1; exact absurd h1 (by simp)
            | some p =>
              have hp : p ∈ v := List.mem_of_find?_eq_some hf
              have hp1 : p.1 = cur := by simpa using List.find?_some hf
              obtain ⟨hhead, hchain, hnostart⟩ := hinv.2 p hp
              refine Or.inr (Or.inr ⟨p.2.rpath, ?_, ?_, ?_, hchain⟩)
              · unfold lookupEntry
                rw [hf]
              · rw [hhead, hp1, hcure]
              · exact hnostart (fun hps => hne (hps ▸ hp1 ▸ hcure))
        · rw [if_neg hcure] at hr
          have hcurprops :
              cur = start ∨ ((lookupEntry v cur).rpath.head? = some cur ∧
                revChainOk (nodeNeighbors w h blocked)
                  ((lookupEntry v cur).rpath ++ [start]) = true ∧
                start ∉ (lookupEntry v cur).rpath) := by
            by_cases hps : cur = start
            · exact Or.inl hps
            · rcases hinv.1 cur hmem with h1 | h1
              · exact absurd h1 hps
              · cases hf : v.find? (fun p => p.1 = cur) with
                | none => rw [hf] at h1; exact absurd h1 (by simp)
                | some p =>
                  have hp : p ∈ v := List.mem_of_find?_eq_some hf
                  have hp1 : p.1 = cur := by simpa using List.find?_some hf
                  obtain ⟨hhead, hchain, hnostart⟩ := hinv.2 p hp
                  refine Or.inr ?_
                  unfold lookupEntry
                  rw [hf]
                  exact ⟨hp1 ▸ hhead, hchain,
                    hnostart (fun hc => hps (hp1 ▸ hc))⟩
          cases hexp : expandNeighbors start endc cur (lookupEntry v cur).cost
              (lookupEntry v cur).rpath base (nodeNeighbors w h blocked cur)
              { o with b0 := o.b0.dropLast } v with
          | error e =>
            rw [hexp] at hr
            cases hr
            exact Or.inl rfl
          | ok pair =>
            rw [hexp] at hr
            obtain ⟨o3, v2⟩ := pair
            have hpres := expandNeighbors_preserves (nodeNeighbors w h blocked)
              start endc cur (lookupEntry v cur).cost (lookupEntry v cur).rpath base
              hcurprops (nodeNeighbors w h blocked cur)
              { o with b0 := o.b0.dropLast } v (fun i hi => hi) hinv.2
              (fun c hc => hinv.1 c (by
                rcases hc with hc | hc | hc | hc
                · exact Or.inl ((List.dropLast_sublist o.b0).mem hc)
                · exact Or.inr (Or.inl hc)
                · exact Or.inr (Or.inr (Or.inl hc))
                · exact Or.inr (Or.inr (Or.inr hc))))
              o3 v2 hexp
            exact ih o3 base v2 ⟨hpres.2, hpres.1⟩ r hr

end Main

/-- C8 counterexample: the claim says `search(start, end)` returns
either a sequence from `end` back to — excluding — `start`, or `null`.
Both disjuncts can fail: on a 3×3 free board from (0,0) to (2,1) the
first expansion computes bucket index `get_cost((1,1),(2,1)) + 1 - 3 =
-1` and the `opens[-1].push` dereferences `undefined` (a thrown
`TypeError`, neither a sequence nor `null`); and for start = end the
call returns `[start]`, a sequence that *includes* `start`. -/
theorem search_crashes_or_includes_start :
    Main.search 3 3 [] (0, 0) (2, 1) 20 = some (.error ()) ∧
    Main.search 3 3 [] (1, 1) (1, 1) 5 = some (.ok (some [(1, 1)])) := by
  refine ⟨by decide, by decide⟩

/-- C8 (amended): whenever `search(start, end)` terminates it either
throws (bucket index outside the four-bucket ring), or returns `null`
on exhausted buckets, or returns an ordered sequence that starts at
`end` and follows discovery (`prev`) links backwards; the sequence
excludes `start` except in the degenerate `start = end` case, where it
is the one-element sequence `[start]`. -/
theorem search_result_characterisation (w h : Int) (blocked : List Coord)
    (start endc : Coord) (fuel : ℕ) (r : Except Unit (Option (List Coord)))
    (hr : Main.search w h blocked start endc fuel = some r) :
    r = .error () ∨ r = .ok none ∨
    ∃ p, r = .ok (some p) ∧ p.head? = some endc ∧
      (start = endc → p = [start]) ∧
      (start ≠ endc → start ∉ p ∧
        Main.revChainOk (Main.nodeNeighbors w h blocked) (p ++ [start]) = true) := by
  by_cases hne : start = endc
  · subst hne
    match fuel, hr with
    | fuel + 1, hr =>
      unfold Main.search Main.searchLoop at hr
      simp [Main.lookupEntry] at hr
      exact Or.inr (Or.inr ⟨[start], hr.symm, rfl, fun _ => rfl,
        fun hcontra => absurd rfl hcontra⟩)
  · have hchar := Main.searchLoop_characterisation w h blocked start endc hne fuel
      ⟨[start], [], [], []⟩ (Main.get_cost start.1 start.2 endc.1 endc.2) []
      ⟨by
        intro c hc
        rcases hc with hc | hc | hc | hc
        · exact Or.inl (by simpa using hc)
        · exact absurd hc (by simp)
        · exact absurd hc (by simp)
        · exact absurd hc (by simp),
       by simp⟩ r hr
    rcases hchar with h1 | h1 | ⟨p, h1, h2, h3, h4⟩
    · exact Or.inl h1
    · exact Or.inr (Or.inl h1)
    · exact Or.inr (Or.inr ⟨p, h1, h2, fun hcontra => absurd hcontra hne,
        fun _ => ⟨h3, h4⟩⟩)

/-- Witness for C8's amended characterisation at the demo-like input:
5×5 free board, (4,4) → (0,0), where a path is returned. -/
theorem search_result_characterisation_witness :
    ((.ok (some [(0, 0), (1, 0), (2, 0), (3, 0), (4, 0), (4, 1), (4, 2), (4, 3)]) :
        Except Unit (Option (List Coord))) = .error () ∨
     (.ok (some [(0, 0), (1, 0), (2, 0), (3, 0), (4, 0), (4, 1), (4, 2), (4, 3)]) :
        Except Unit (Option (List Coord))) = .ok none ∨
     ∃ p, (.ok (some [(0, 0), (1, 0), (2, 0), (3, 0), (4, 0), (4, 1), (4, 2), (4, 3)]) :
        Except Unit (Option (List Coord))) = .ok (some p) ∧
       p.head? = some ((0, 0) : Coord) ∧
       (((4, 4) : Coord) = (0, 0) → p = [(4, 4)]) ∧
       (((4, 4) : Coord) ≠ (0, 0) → ((4, 4) : Coord) ∉ p ∧
         Main.revChainOk (Main.nodeNeighbors 5 5 []) (p ++ [(4, 4)]) = true)) :=
  search_result_characterisation 5 5 [] (4, 4) (0, 0) 60 _ (by decide)

namespace AStar

/-!
### Invariants of the A* main loop

The properties C3 (path validity), C10 (termination) and C6
(completeness on obstacle-free grids) all follow from one invariant of
`searchLoop`, preserved by each iteration.
-/

/-- A well-formed search node: its cell is passable, and its recorded
chain is a valid hexagonal path from the start to its own cell. -/
def NodeOk (a : Grid) (s : Coord) (n : Node) : Prop :=
  isValidPosition a n.x n.y = true ∧
  (n.path.map Prod.fst).head? = some s ∧
  (n.path.map Prod.fst).getLast? = some (n.x, n.y) ∧
  isHexPath a (n.path.map Prod.fst) = true

theorem getMinFNode_mem (l : List Node) (hl : l ≠ []) : getMinFNode l ∈ l := by
  obtain ⟨i, hi, heq, -, -⟩ := getMinFNode_first_min l hl
  rw [heq]
  exact l.get_mem _ _

theorem neighbors_coord (a : Grid) (n : Node) :
    getNeighbors a n = neighbors a (n.x, n.y) := rfl

theorem mem_getNeighbors_valid {a : Grid} {n : Node} {c : Coord}
    (h : c ∈ getNeighbors a n) : isValidPosition a c.1 c.2 = true := by
  unfold getNeighbors at h
  simp only [List.mem_filterMap] at h
  obtain ⟨dir, -, hdir⟩ := h
  by_cases hv : isValidPosition a (n.x + dir.1) (n.y + dir.2) = true
  · rw [if_pos hv] at hdir
    cases hdir
    exact hv
  · rw [if_neg hv] at hdir
    exact absurd hdir (by simp)

theorem removeFromOpenList_subset {l : List Node} {node : Node} {n : Node}
    (h : n ∈ removeFromOpenList l node) : n ∈ l := by
  induction l with
  | nil => exact absurd h (by simp [removeFromOpenList])
  | cons m t ih =>
    unfold removeFromOpenList at h
    by_cases hm : m.x = node.x ∧ m.y = node.y
    · rw [if_pos hm] at h
      exact List.mem_cons_of_mem m h
    · rw [if_neg hm] at h
      rcases List.mem_cons.mp h with h1 | h1
      · exact h1 ▸ List.mem_cons_self m t
      · exact List.mem_cons_of_mem m (ih h1)

theorem removeFromOpenList_sublist (l : List Node) (node : Node) :
    (removeFromOpenList l node).Sublist l := by
  induction l with
  | nil => simp [removeFromOpenList]
  | cons m t ih =>
    unfold removeFromOpenList
    by_cases hm : m.x = node.x ∧ m.y = node.y
    · rw [if_pos hm]
      exact List.sublist_cons_of_sublist m (List.Sublist.refl t)
    · rw [if_neg hm]
      exact List.Sublist.cons₂ m ih

theorem removeFromOpenList_coord_mem {l : List Node} {node : Node} {c : Coord}
    (hc : c ∈ l.map Node.coord) (hne : c ≠ node.coord) :
    c ∈ (removeFromOpenList l node).map Node.coord := by
  induction l with
  | nil => exact absurd hc (by simp)
  | cons m t ih =>
    unfold removeFromOpenList
    by_cases hm : m.x = node.x ∧ m.y = node.y
    · rw [if_pos hm]
      rcases List.mem_map.mp hc with ⟨n, hn, hcoord⟩
      rcases List.mem_cons.mp hn with h1 | h1
      · exfalso
        apply hne
        rw [← hcoord, h1]
        exact Prod.ext hm.1 hm.2
      · exact List.mem_map.mpr ⟨n, h1, hcoord⟩
    · rw [if_neg hm]
      rcases List.mem_map.mp hc with ⟨n, hn, hcoord⟩
      rcases List.mem_cons.mp hn with h1 | h1
      · exact List.mem_map.mpr ⟨n, by simp [h1], hcoord⟩
      · simpa using Or.inr (List.mem_map.mp (ih (List.mem_map.mpr ⟨n, h1, hcoord⟩)))

theorem removeFromOpenList_self_not_mem {l : List Node} {node : Node}
    (hnd : (l.map Node.coord).Nodup) :
    node.coord ∉ (removeFromOpenList l node).map Node.coord := by
  induction l with
  | nil => simp [removeFromOpenList]
  | cons m t ih =>
    have hnd2 : m.coord ∉ t.map Node.coord ∧ (t.map Node.coord).Nodup := by
      rw [List.map_cons, List.nodup_cons] at hnd
      exact hnd
    unfold removeFromOpenList
    by_cases hm : m.x = node.x ∧ m.y = node.y
    · rw [if_pos hm]
      have hmc : m.coord = node.coord := Prod.ext hm.1 hm.2
      intro hmem
      exact hnd2.1 (hmc ▸ hmem)
    · rw [if_neg hm]
      intro hmem
      rcases List.mem_map.mp hmem with ⟨n, hn, hcoord⟩
      rcases List.mem_cons.mp hn with h1 | h1
      · apply hm
        have : m.coord = node.coord := by rw [← h1, hcoord]
        exact ⟨congrArg Prod.fst this, congrArg Prod.snd this⟩
      · exact ih hnd2.2 (List.mem_map.mpr ⟨n, h1, hcoord⟩)

theorem updateFirst_mem {l : List Node} {c : Coord} {repl : Node} {n : Node}
    (h : n ∈ updateFirst l c repl) : n ∈ l ∨ n = repl := by
  induction l with
  | nil => exact absurd h (by simp [updateFirst])
  | cons m t ih =>
    unfold updateFirst at h
    by_cases hm : m.x = c.1 ∧ m.y = c.2
    · rw [if_pos hm] at h
      rcases List.mem_cons.mp h with h1 | h1
      · exact Or.inr h1
      · exact Or.inl (List.mem_cons_of_mem m h1)
    · rw [if_neg hm] at h
      rcases List.mem_cons.mp h with h1 | h1
      · exact Or.inl (h1 ▸ List.mem_cons_self m t)
      · rcases ih h1 with h2 | h2
        · exact Or.inl (List.mem_cons_of_mem m h2)
        · exact Or.inr h2

theorem updateFirst_map_coord {l : List Node} {c : Coord} {repl : Node}
    (hrepl : repl.coord = c) :
    (updateFirst l c repl).map Node.coord = l.map Node.coord := by
  induction l with
  | nil => simp [updateFirst]
  | cons m t ih =>
    unfold updateFirst
    by_cases hm : m.x = c.1 ∧ m.y = c.2
    · rw [if_pos hm]
      have : m.coord = c := Prod.ext hm.1 hm.2
      simp [hrepl, this]
    · rw [if_neg hm]
      simp [ih]

theorem chainOk_append {a : Grid} {l : List Coord} {c d : Coord}
    (hchain : chainOk a l = true) (hlast : l.getLast? = some c)
    (hd : d ∈ neighbors a c) : chainOk a (l ++ [d]) = true := by
  induction l with
  | nil => exact absurd hlast (by simp)
  | cons x t ih =>
    match t with
    | [] =>
      have hxc : x = c := by simpa using hlast
      subst hxc
      show ((neighbors a x).contains d && chainOk a [d]) = true
      simp [chainOk, hd]
    | y :: t2 =>
      have hsplit : ((neighbors a x).contains y && chainOk a (y :: t2)) = true := hchain
      rw [Bool.and_eq_true] at hsplit
      have hlast2 : (y :: t2).getLast? = some c := by
        rw [← hlast]
        exact (List.getLast?_cons_cons).symm
      have := ih hsplit.2 hlast2
      show ((neighbors a x).contains y && chainOk a ((y :: t2) ++ [d])) = true
      rw [Bool.and_eq_true]
      exact ⟨hsplit.1, this⟩

theorem isHexPath_append {a : Grid} {l : List Coord} {c d : Coord}
    (hpath : isHexPath a l = true) (hlast : l.getLast? = some c)
    (hd : d ∈ neighbors a c) : isHexPath a (l ++ [d]) = true := by
  unfold isHexPath at hpath ⊢
  rw [Bool.and_eq_true] at hpath ⊢
  constructor
  · rw [List.all_append]
    rw [Bool.and_eq_true]
    refine ⟨hpath.1, ?_⟩
    have := mem_getNeighbors_valid (a := a) (n := coordNode c) hd
    simp [this]
  · exact chainOk_append hpath.2 hlast hd

theorem find?_coord_none {op : List Node} {nb : Coord}
    (h : op.find? (fun n => n.x = nb.1 ∧ n.y = nb.2) = none) :
    nb ∉ op.map Node.coord := by
  intro hmem
  rcases List.mem_map.mp hmem with ⟨n, hn, hcoord⟩
  have := List.find?_eq_none.mp h n hn
  simp only [decide_eq_true_eq] at this
  exact this ⟨congrArg Prod.fst hcoord, congrArg Prod.snd hcoord⟩

theorem find?_coord_some {op : List Node} {nb : Coord} {ex : Node}
    (h : op.find? (fun n => n.x = nb.1 ∧ n.y = nb.2) = some ex) :
    ex ∈ op ∧ ex.coord = nb := by
  refine ⟨List.mem_of_find?_eq_some h, ?_⟩
  have := List.find?_some h
  simp only [decide_eq_true_eq] at this
  exact Prod.ext this.1 this.2

theorem processNeighbor_props (a : Grid) (s e : Coord) (cur : Node)
    (closed : List Coord) (hcur : NodeOk a s cur) (op : List Node) (nb : Coord)
    (hnb : nb ∈ neighbors a (cur.x, cur.y))
    (hok : ∀ n ∈ op, NodeOk a s n)
    (hnd : (op.map Node.coord).Nodup)
    (hdisj : ∀ n ∈ op, n.coord ∉ closed) :
    (∀ n ∈ processNeighbor e cur closed op nb, NodeOk a s n) ∧
    ((processNeighbor e cur closed op nb).map Node.coord).Nodup ∧
    (∀ n ∈ processNeighbor e cur closed op nb, n.coord ∉ closed) ∧
    (∀ c ∈ op.map Node.coord, c ∈ (processNeighbor e cur closed op nb).map Node.coord) ∧
    (nb ∈ (processNeighbor e cur closed op nb).map Node.coord ∨ nb ∈ closed) := by
  have hvalid : isValidPosition a nb.1 nb.2 = true :=
    mem_getNeighbors_valid (a := a) (n := coordNode (cur.x, cur.y)) hnb
  have hpathhead : (cur.path.map Prod.fst) ≠ [] := by
    intro hcontra
    have hh := hcur.2.1
    rw [hcontra] at hh
    exact absurd hh (by simp)
  by_cases hclosed : closed.contains nb = true
  · have hres : processNeighbor e cur closed op nb = op := by
      unfold processNeighbor
      rw [if_pos hclosed]
    rw [hres]
    exact ⟨hok, hnd, hdisj, fun c hc => hc, Or.inr (by simpa using hclosed)⟩
  · have hnbclosed : nb ∉ closed := fun hmem => hclosed (by simpa using hmem)
    cases hfind : op.find? (fun n => n.x = nb.1 ∧ n.y = nb.2) with
    | none =>
      have hnotin : nb ∉ op.map Node.coord := find?_coord_none hfind
      set newNode : Node :=
        { x := nb.1, y := nb.2, g := cur.g + 1,
          h := calculateHeuristic e nb.1 nb.2,
          f := (cur.g + 1 : Int) + calculateHeuristic e nb.1 nb.2,
          path := cur.path ++ [(nb, cur.g + 1)] } with hnew
      have hnewOk : NodeOk a s newNode := by
        refine ⟨hvalid, ?_, ?_, ?_⟩
        · rw [hnew]
          simp only [List.map_append, List.head?_append]
          rw [hcur.2.1]
          rfl
        · rw [hnew]
          simp only [List.map_append, List.map_cons, List.map_nil]
          rw [List.getLast?_concat]
        · rw [hnew]
          simp only [List.map_append, List.map_cons, List.map_nil]
          exact isHexPath_append hcur.2.2.2 hcur.2.2.1 hnb
      have hres : processNeighbor e cur closed op nb = op ++ [newNode] := by
        unfold processNeighbor
        rw [if_neg hclosed, hfind]
      refine ⟨?_, ?_, ?_, ?_, ?_⟩ <;> rw [hres]
      · intro n hn
        rcases List.mem_append.mp hn with h1 | h1
        · exact hok n h1
        · rw [List.mem_singleton.mp h1]
          exact hnewOk
      · rw [List.map_append]
        have : newNode.coord = nb := rfl
        simp [List.nodup_append, hnd, this, hnotin]
      · intro n hn
        rcases List.mem_append.mp hn with h1 | h1
        · exact hdisj n h1
        · rw [List.mem_singleton.mp h1]
          exact hnbclosed
      · intro c hc
        rw [List.map_append]
        exact List.mem_append_left _ hc
      · refine Or.inl ?_
        rw [List.map_append]
        exact List.mem_append_right _ (by simp [Node.coord])
    | some ex =>
      obtain ⟨hexmem, hexcoord⟩ := find?_coord_some hfind
      by_cases himp : cur.g + 1 < ex.g
      · set repl : Node :=
          { ex with g := cur.g + 1, f := ((cur.g + 1 : Int) : ℚ) + ex.h,
                    path := cur.path ++ [(nb, cur.g + 1)] } with hrepl
        have hreplcoord : repl.coord = nb := hexcoord
        have hreplOk : NodeOk a s repl := by
          refine ⟨?_, ?_, ?_, ?_⟩
          · show isValidPosition a repl.x repl.y = true
            have h1 : repl.x = nb.1 := congrArg Prod.fst hreplcoord
            have h2 : repl.y = nb.2 := congrArg Prod.snd hreplcoord
            rw [h1, h2]
            exact hvalid
          · show ((cur.path ++ [(nb, cur.g + 1)]).map Prod.fst).head? = some s
            simp only [List.map_append, List.head?_append]
            rw [hcur.2.1]
            rfl
          · show ((cur.path ++ [(nb, cur.g + 1)]).map Prod.fst).getLast? =
              some (repl.x, repl.y)
            simp only [List.map_append, List.map_cons, List.map_nil]
            rw [List.getLast?_concat]
            have : (repl.x, repl.y) = nb := hreplcoord
            rw [this]
          · show isHexPath a ((cur.path ++ [(nb, cur.g + 1)]).map Prod.fst) = true
            simp only [List.map_append, List.map_cons, List.map_nil]
            exact isHexPath_append hcur.2.2.2 hcur.2.2.1 hnb
        have hres : processNeighbor e cur closed op nb = updateFirst op nb repl := by
          unfold processNeighbor
          rw [if_neg hclosed, hfind]
          dsimp only
          rw [if_pos himp]
        refine ⟨?_, ?_, ?_, ?_, ?_⟩ <;> rw [hres]
        · intro n hn
          rcases updateFirst_mem hn with h1 | h1
          · exact hok n h1
          · rw [h1]
            exact hreplOk
        · rw [updateFirst_map_coord hreplcoord]
          exact hnd
        · intro n hn
          rcases updateFirst_mem hn with h1 | h1
          · exact hdisj n h1
          · rw [h1, hreplcoord]
            exact hnbclosed
        · intro c hc
          rw [updateFirst_map_coord hreplcoord]
          exact hc
        · refine Or.inl ?_
          rw [updateFirst_map_coord hreplcoord, ← hexcoord]
          exact List.mem_map.mpr ⟨ex, hexmem, rfl⟩
      · have hres : processNeighbor e cur closed op nb = op := by
          unfold processNeighbor
          rw [if_neg hclosed, hfind]
          dsimp only
          rw [if_neg himp]
        rw [hres]
        refine ⟨hok, hnd, hdisj, fun c hc => hc, Or.inl ?_⟩
        rw [← hexcoord]
        exact List.mem_map.mpr ⟨ex, hexmem, rfl⟩

theorem processFold_props (a : Grid) (s e : Coord) (cur : Node) (closed : List Coord)
    (hcur : NodeOk a s cur) :
    ∀ (nbs : List Coord) (op : List Node),
      (∀ nb ∈ nbs, nb ∈ neighbors a (cur.x, cur.y)) →
      (∀ n ∈ op, NodeOk a s n) →
      ((op.map Node.coord).Nodup) →
      (∀ n ∈ op, n.coord ∉ closed) →
      (∀ n ∈ nbs.foldl (processNeighbor e cur closed) op, NodeOk a s n) ∧
      ((nbs.foldl (processNeighbor e cur closed) op).map Node.coord).Nodup ∧
      (∀ n ∈ nbs.foldl (processNeighbor e cur closed) op, n.coord ∉ closed) ∧
      (∀ c ∈ op.map Node.coord,
        c ∈ (nbs.foldl (processNeighbor e cur closed) op).map Node.coord) ∧
      (∀ nb ∈ nbs,
        nb ∈ (nbs.foldl (processNeighbor e cur closed) op).map Node.coord ∨
          nb ∈ closed) := by
  intro nbs
  induction nbs with
  | nil =>
    intro op _ h2 h3 h4
    exact ⟨h2, h3, h4, fun c hc => hc, by simp⟩
  | cons nb rest ih =>
    intro op hnbs hok hnd hdisj
    obtain ⟨s1, s2, s3, s4, s5⟩ := processNeighbor_props a s e cur closed hcur op nb
      (hnbs nb (List.mem_cons_self nb rest)) hok hnd hdisj
    obtain ⟨r1, r2, r3, r4, r5⟩ := ih (processNeighbor e cur closed op nb)
      (fun j hj => hnbs j (List.mem_cons_of_mem _ hj)) s1 s2 s3
    rw [List.foldl_cons]
    refine ⟨r1, r2, r3, fun c hc => r4 c (s4 c hc), ?_⟩
    intro j hj
    rcases List.mem_cons.mp hj with h1 | h1
    · subst h1
      rcases s5 with h2 | h2
      · exact Or.inl (r4 _ h2)
      · exact Or.inr h2
    · exact r5 j h1

/-- The invariant of the A* main loop, tying the open list and the
closed set together. -/
structure LoopInv (a : Grid) (s e : Coord) (op : List Node)
    (closed : List Coord) : Prop where
  open_ok : ∀ n ∈ op, NodeOk a s n
  open_nodup : (op.map Node.coord).Nodup
  open_closed : ∀ n ∈ op, n.coord ∉ closed
  closed_valid : ∀ c ∈ closed, isValidPosition a c.1 c.2 = true
  closed_nodup : closed.Nodup
  closure : ∀ c ∈ closed, ∀ d ∈ neighbors a c, d ∈ op.map Node.coord ∨ d ∈ closed
  start_mem : s ∈ op.map Node.coord ∨ s ∈ closed
  end_not_closed : e ∉ closed

theorem loopInv_step (a : Grid) (s e : Coord) (op : List Node) (closed : List Coord)
    (hinv : LoopInv a s e op closed) (hne : op ≠ [])
    (hcure : ¬((getMinFNode op).x = e.1 ∧ (getMinFNode op).y = e.2)) :
    LoopInv a s e
      ((getNeighbors a (getMinFNode op)).foldl
        (processNeighbor e (getMinFNode op)
          (closed ++ [((getMinFNode op).x, (getMinFNode op).y)]))
        (removeFromOpenList op (getMinFNode op)))
      (closed ++ [((getMinFNode op).x, (getMinFNode op).y)]) := by
  have hcurmem : getMinFNode op ∈ op := getMinFNode_mem op hne
  have hcurOk : NodeOk a s (getMinFNode op) := hinv.open_ok _ hcurmem
  have hcoord : ((getMinFNode op).x, (getMinFNode op).y) = (getMinFNode op).coord := rfl
  have hop'_ok : ∀ n ∈ removeFromOpenList op (getMinFNode op), NodeOk a s n :=
    fun n hn => hinv.open_ok n (removeFromOpenList_subset hn)
  have hop'_nd : ((removeFromOpenList op (getMinFNode op)).map Node.coord).Nodup :=
    hinv.open_nodup.sublist ((removeFromOpenList_sublist op (getMinFNode op)).map _)
  have hop'_disj : ∀ n ∈ removeFromOpenList op (getMinFNode op),
      n.coord ∉ closed ++ [((getMinFNode op).x, (getMinFNode op).y)] := by
    intro n hn hmem
    rcases List.mem_append.mp hmem with h1 | h1
    · exact hinv.open_closed n (removeFromOpenList_subset hn) h1
    · have h2 : n.coord = (getMinFNode op).coord := by
        rw [hcoord] at h1
        simpa using h1
      exact removeFromOpenList_self_not_mem hinv.open_nodup
        (List.mem_map.mpr ⟨n, hn, h2⟩)
  obtain ⟨r1, r2, r3, r4, r5⟩ := processFold_props a s e (getMinFNode op)
    (closed ++ [((getMinFNode op).x, (getMinFNode op).y)]) hcurOk
    (getNeighbors a (getMinFNode op)) (removeFromOpenList op (getMinFNode op))
    (fun nb hnb => hnb) hop'_ok hop'_nd hop'_disj
  refine ⟨r1, r2, r3, ?_, ?_, ?_, ?_, ?_⟩
  · intro c hc
    rcases List.mem_append.mp hc with h1 | h1
    · exact hinv.closed_valid c h1
    · have h2 : c = ((getMinFNode op).x, (getMinFNode op).y) := by simpa using h1
      rw [h2]
      exact hcurOk.1
  · have hnotin : ((getMinFNode op).x, (getMinFNode op).y) ∉ closed := by
      rw [hcoord]
      exact hinv.open_closed _ hcurmem
    simp [List.nodup_append, hinv.closed_nodup, hnotin]
  · intro c hc d hd
    rcases List.mem_append.mp hc with h1 | h1
    · rcases hinv.closure c h1 d hd with h2 | h2
      · by_cases hdc : d = ((getMinFNode op).x, (getMinFNode op).y)
        · exact Or.inr (List.mem_append_right _ (by simp [hdc]))
        · refine Or.inl (r4 d ?_)
          exact removeFromOpenList_coord_mem h2 (by rw [hcoord] at hdc; exact hdc)
      · exact Or.inr (List.mem_append_left _ h2)
    · have h2 : c = ((getMinFNode op).x, (getMinFNode op).y) := by simpa using h1
      subst h2
      rcases r5 d hd with h3 | h3
      · exact Or.inl h3
      · exact Or.inr h3
  · rcases hinv.start_mem with h1 | h1
    · by_cases hsc : s = ((getMinFNode op).x, (getMinFNode op).y)
      · exact Or.inr (List.mem_append_right _ (by simp [hsc]))
      · refine Or.inl (r4 s ?_)
        exact removeFromOpenList_coord_mem h1 (by rw [hcoord] at hsc; exact hsc)
    · exact Or.inr (List.mem_append_left _ h1)
  · intro hmem
    rcases List.mem_append.mp hmem with h1 | h1
    · exact hinv.end_not_closed h1
    · have h2 : e = ((getMinFNode op).x, (getMinFNode op).y) := by simpa using h1
      exact hcure ⟨(congrArg Prod.fst h2).symm, (congrArg Prod.snd h2).symm⟩

theorem searchLoop_path_valid (a : Grid) (s e : Coord) :
    ∀ (fuel : ℕ) (op : List Node) (closed : List Coord),
      LoopInv a s e op closed →
      ∀ p, searchLoop a e fuel op closed = some (some p) →
        (p.map Prod.fst).head? = some s ∧
        (p.map Prod.fst).getLast? = some e ∧
        isHexPath a (p.map Prod.fst) = true := by
  intro fuel
  induction fuel with
  | zero =>
    intro op closed _ p hp
    exact absurd hp (by simp [searchLoop])
  | succ fuel ih =>
    intro op closed hinv p hp
    match op with
    | [] =>
      unfold searchLoop at hp
      exact absurd hp (by simp)
    | n :: t =>
      unfold searchLoop at hp
      by_cases hcure : (getMinFNode (n :: t)).x = e.1 ∧ (getMinFNode (n :: t)).y = e.2
      · rw [if_pos hcure] at hp
        have hpeq : (getMinFNode (n :: t)).path = p := by
          have := Option.some.inj hp
          exact Option.some.inj this
        have hok := hinv.open_ok _ (getMinFNode_mem (n :: t) (by simp))
        refine ⟨hpeq ▸ hok.2.1, ?_, hpeq ▸ hok.2.2.2⟩
        have hlast := hok.2.2.1
        rw [hpeq] at hlast
        rw [hlast]
        have : ((getMinFNode (n :: t)).x, (getMinFNode (n :: t)).y) = e := by
          rw [hcure.1, hcure.2]
        rw [this]
      · rw [if_neg hcure] at hp
        dsimp only at hp
        exact ih _ _ (loopInv_step a s e (n :: t) closed hinv (by simp) hcure) p hp

theorem isValidPosition_of (a : Grid) (c : Coord)
    (hval : isValidCoordinate a c.1 c.2 = true) (hobs : c ∉ a.obstacles) :
    isValidPosition a c.1 c.2 = true := by
  unfold isValidPosition
  simp [hval, hobs]

theorem loopInv_init (a : Grid) (s e : Coord)
    (hs : isValidPosition a s.1 s.2 = true) :
    LoopInv a s e [startNode e s] [] := by
  refine ⟨?_, by simp, by simp, by simp, by simp, by simp, ?_, by simp⟩
  · intro n hn
    rw [List.mem_singleton.mp hn]
    refine ⟨hs, by simp [startNode], ?_, ?_⟩
    · show ([(s, 0)].map Prod.fst).getLast? = some ((startNode e s).x, (startNode e s).y)
      simp [startNode]
    · show isHexPath a ([(s, 0)].map Prod.fst) = true
      simp [isHexPath, chainOk, hs]
  · refine Or.inl ?_
    simp [startNode, Node.coord]

theorem findPath_ok_inputs {a : Grid} {s e : Coord} {r : Option (List (Coord × Int))}
    (h : findPath a s e = .ok r) :
    isValidCoordinate a s.1 s.2 = true ∧ isValidCoordinate a e.1 e.2 = true ∧
    s ∉ a.obstacles ∧ e ∉ a.obstacles := by
  by_cases h1 : isValidCoordinate a s.1 s.2 = true <;>
    by_cases h2 : isValidCoordinate a e.1 e.2 = true <;>
    by_cases h3 : s ∈ a.obstacles <;>
    by_cases h4 : e ∈ a.obstacles <;>
    simp_all [findPath]

theorem findPath_some_loop {a : Grid} {s e : Coord} {p : List (Coord × Int)}
    (h : findPath a s e = .ok (some p)) :
    searchLoop a e (loopFuel a) [startNode e s] [] = some (some p) := by
  obtain ⟨h1, h2, h3, h4⟩ := findPath_ok_inputs h
  unfold findPath at h
  rw [if_neg (by simp [h1]), if_neg (by simp [h2]),
      if_neg (by simp [h3]), if_neg (by simp [h4])] at h
  have heq := Except.ok.inj h
  cases hloop : searchLoop a e (loopFuel a) [startNode e s] [] with
  | none => rw [hloop] at heq; exact absurd heq (by simp)
  | some r =>
    rw [hloop] at heq
    simp only [Option.getD_some] at heq
    rw [heq]

end AStar

/-- C3: whenever `findPath` returns a path, its first coordinate is the
start, its last is the end, every coordinate is in bounds and not an
obstacle, and every consecutive pair is adjacent under the hexagonal
rule of the earlier cell (per-row-parity direction set). -/
theorem findPath_path_valid (a : AStar.Grid) (s e : Coord) (p : List (Coord × Int))
    (hp : AStar.findPath a s e = .ok (some p)) :
    (p.map Prod.fst).head? = some s ∧
    (p.map Prod.fst).getLast? = some e ∧
    AStar.isHexPath a (p.map Prod.fst) = true := by
  obtain ⟨h1, h2, h3, h4⟩ := AStar.findPath_ok_inputs hp
  exact AStar.searchLoop_path_valid a s e (AStar.loopFuel a) [AStar.startNode e s] []
    (AStar.loopInv_init a s e (AStar.isValidPosition_of a s h1 h3)) p
    (AStar.findPath_some_loop hp)

/-- Witness for C3 at the spec's §8 example: `mapSize = 3`, no
obstacles, (0,0) → (2,0). -/
theorem findPath_path_valid_witness :
    (([((0, 0), 0), ((1, 0), 1), ((2, 0), 2)].map
        (Prod.fst : Coord × Int → Coord)).head? = some (0, 0) ∧
     ([((0, 0), 0), ((1, 0), 1), ((2, 0), 2)].map
        (Prod.fst : Coord × Int → Coord)).getLast? = some (2, 0) ∧
     AStar.isHexPath ⟨3, []⟩ ([((0, 0), 0), ((1, 0), 1), ((2, 0), 2)].map
        (Prod.fst : Coord × Int → Coord)) = true) :=
  findPath_path_valid ⟨3, []⟩ (0, 0) (2, 0) _ (by decide)

namespace AStar

theorem isValidCoordinate_iff (a : Grid) (x y : Int) :
    isValidCoordinate a x y = true ↔
      0 ≤ x ∧ x < a.mapSize ∧ 0 ≤ y ∧ y < a.mapSize := by
  unfold isValidCoordinate
  simp only [Bool.and_eq_true, decide_eq_true_eq]
  tauto

/-- A duplicate-free list of in-bounds coordinates has at most
`mapSize²` elements. -/
theorem closed_length_le (a : Grid) (closed : List Coord)
    (hval : ∀ c ∈ closed, isValidCoordinate a c.1 c.2 = true)
    (hnd : closed.Nodup) :
    closed.length ≤ a.mapSize.toNat * a.mapSize.toNat := by
  classical
  have hsub : closed.toFinset ⊆
      Finset.Ico (0 : ℤ) a.mapSize ×ˢ Finset.Ico (0 : ℤ) a.mapSize := by
    intro c hc
    have hc2 := hval c (List.mem_toFinset.mp hc)
    rw [isValidCoordinate_iff] at hc2
    simp only [Finset.mem_product, Finset.mem_Ico]
    exact ⟨⟨hc2.1, hc2.2.1⟩, ⟨hc2.2.2.1, hc2.2.2.2⟩⟩
  have hcard := Finset.card_le_card hsub
  rw [List.toFinset_card_of_nodup hnd] at hcard
  simpa [Int.card_Ico] using hcard

theorem searchLoop_ne_none (a : Grid) (s e : Coord) :
    ∀ (fuel : ℕ) (op : List Node) (closed : List Coord),
      LoopInv a s e op closed →
      a.mapSize.toNat * a.mapSize.toNat < closed.length + fuel →
      searchLoop a e fuel op closed ≠ none := by
  intro fuel
  induction fuel with
  | zero =>
    intro op closed hinv hbudget
    exfalso
    have hle := closed_length_le a closed
      (fun c hc => by
        have := hinv.closed_valid c hc
        unfold isValidPosition at this
        rw [Bool.and_eq_true] at this
        exact this.1)
      hinv.closed_nodup
    omega
  | succ fuel ih =>
    intro op closed hinv hbudget
    match op with
    | [] =>
      unfold searchLoop
      simp
    | n :: t =>
      unfold searchLoop
      by_cases hcure : (getMinFNode (n :: t)).x = e.1 ∧ (getMinFNode (n :: t)).y = e.2
      · rw [if_pos hcure]
        simp
      · rw [if_neg hcure]
        dsimp only
        refine ih _ _ (loopInv_step a s e (n :: t) closed hinv (by simp) hcure) ?_
        rw [List.length_append]
        simp only [List.length_singleton]
        omega

end AStar

/-- C10: `findPath` terminates on every valid input.  Each loop
iteration either returns or closes a previously unclosed, in-bounds
coordinate (the invariant `LoopInv` keeps open and closed coordinates
duplicate-free, in bounds, and disjoint), so a budget of
`mapSize² + 1` iterations — `loopFuel` — always suffices: the loop
yields a result instead of running out of fuel. -/
theorem findPath_terminates (a : AStar.Grid) (s e : Coord)
    (hs : AStar.isValidCoordinate a s.1 s.2 = true)
    (hobs : s ∉ a.obstacles) :
    ∃ r, AStar.searchLoop a e (AStar.loopFuel a) [AStar.startNode e s] [] = some r := by
  have hne := AStar.searchLoop_ne_none a s e (AStar.loopFuel a) [AStar.startNode e s] []
    (AStar.loopInv_init a s e (AStar.isValidPosition_of a s hs hobs))
    (by unfold AStar.loopFuel; omega)
  cases hloop : AStar.searchLoop a e (AStar.loopFuel a) [AStar.startNode e s] [] with
  | none => exact absurd hloop hne
  | some r => exact ⟨r, rfl⟩

/-- Witness for C10 on a concrete 3×3 search. -/
theorem findPath_terminates_witness :
    ∃ r, AStar.searchLoop ⟨3, []⟩ (2, 0) (AStar.loopFuel ⟨3, []⟩)
      [AStar.startNode (2, 0) (0, 0)] [] = some r :=
  findPath_terminates ⟨3, []⟩ (0, 0) (2, 0) (by decide) (by decide)

namespace AStar

/-- Reachability under the hexagonal adjacency. -/
inductive Reach (a : Grid) : Coord → Coord → Prop
  | refl (c : Coord) : Reach a c c
  | tail {c d f : Coord} : Reach a c d → f ∈ neighbors a d → Reach a c f

theorem reach_trans {a : Grid} {c d f : Coord} (h1 : Reach a c d)
    (h2 : Reach a d f) : Reach a c f := by
  induction h2 with
  | refl => exact h1
  | tail _ hstep ih => exact Reach.tail ih hstep

theorem mem_neighbors_of_dir {a : Grid} (c dir : Coord)
    (hdir : dir ∈ (if c.2 % 2 ≠ 0 then oddRowDirections else evenRowDirections))
    (hval : isValidPosition a (c.1 + dir.1) (c.2 + dir.2) = true) :
    (c.1 + dir.1, c.2 + dir.2) ∈ neighbors a c := by
  unfold neighbors getNeighbors
  simp only [List.mem_filterMap]
  refine ⟨dir, by simpa [coordNode] using hdir, ?_⟩
  simp [coordNode, hval]

theorem ortho_dir_mem (c : Coord) (dir : Coord)
    (hdir : dir = (1, 0) ∨ dir = (-1, 0) ∨ dir = (0, 1) ∨ dir = (0, -1)) :
    dir ∈ (if c.2 % 2 ≠ 0 then oddRowDirections else evenRowDirections) := by
  rcases hdir with h | h | h | h <;> subst h <;> split <;> decide

theorem isValidPosition_free (a : Grid) (hobst : a.obstacles = []) (x y : Int)
    (hx : 0 ≤ x) (hx2 : x < a.mapSize) (hy : 0 ≤ y) (hy2 : y < a.mapSize) :
    isValidPosition a x y = true := by
  unfold isValidPosition
  rw [hobst]
  simp [(isValidCoordinate_iff a x y).mpr ⟨hx, hx2, hy, hy2⟩]

theorem reach_ortho_step (a : Grid) (hobst : a.obstacles = []) (c : Coord)
    (dir : Coord) (hdir : dir = (1, 0) ∨ dir = (-1, 0) ∨ dir = (0, 1) ∨ dir = (0, -1))
    (hx : 0 ≤ c.1 + dir.1) (hx2 : c.1 + dir.1 < a.mapSize)
    (hy : 0 ≤ c.2 + dir.2) (hy2 : c.2 + dir.2 < a.mapSize) :
    (c.1 + dir.1, c.2 + dir.2) ∈ neighbors a c :=
  mem_neighbors_of_dir c dir (ortho_dir_mem c dir hdir)
    (isValidPosition_free a hobst _ _ hx hx2 hy hy2)

theorem reach_right (a : Grid) (hobst : a.obstacles = []) :
    ∀ (k : ℕ) (x y : Int), 0 ≤ x → x + (k : ℤ) < a.mapSize →
      0 ≤ y → y < a.mapSize → Reach a (x, y) (x + (k : ℤ), y) := by
  intro k
  induction k with
  | zero =>
    intro x y _ _ _ _
    simpa using Reach.refl (x, y)
  | succ k ih =>
    intro x y hx hx2 hy hy2
    have hb : x + (k : ℤ) < a.mapSize := by push_cast at hx2 ⊢; omega
    have hprev := ih x y hx hb hy hy2
    have hstep : (x + (k : ℤ) + 1, y + 0) ∈ neighbors a (x + (k : ℤ), y) :=
      reach_ortho_step a hobst (x + (k : ℤ), y) (1, 0) (Or.inl rfl)
        (by omega) (by push_cast at hx2 ⊢; omega) (by omega) (by omega)
    have heq : (x + ((k + 1 : ℕ) : ℤ), y) = (x + (k : ℤ) + 1, y + 0) := by
      push_cast
      exact Prod.ext (by ring) (by ring)
    rw [heq]
    exact Reach.tail hprev hstep

theorem reach_left (a : Grid) (hobst : a.obstacles = []) :
    ∀ (k : ℕ) (x y : Int), 0 ≤ x - (k : ℤ) → x < a.mapSize →
      0 ≤ y → y < a.mapSize → Reach a (x, y) (x - (k : ℤ), y) := by
  intro k
  induction k with
  | zero =>
    intro x y _ _ _ _
    simpa using Reach.refl (x, y)
  | succ k ih =>
    intro x y hx hx2 hy hy2
    have hb : 0 ≤ x - (k : ℤ) := by push_cast at hx ⊢; omega
    have hprev := ih x y hb hx2 hy hy2
    have hstep : (x - (k : ℤ) + -1, y + 0) ∈ neighbors a (x - (k : ℤ), y) :=
      reach_ortho_step a hobst (x - (k : ℤ), y) (-1, 0) (Or.inr (Or.inl rfl))
        (by push_cast at hx ⊢; omega) (by omega) (by omega) (by omega)
    have heq : (x - ((k + 1 : ℕ) : ℤ), y) = (x - (k : ℤ) + -1, y + 0) := by
      push_cast
      exact Prod.ext (by ring) (by ring)
    rw [heq]
    exact Reach.tail hprev hstep

theorem reach_down (a : Grid) (hobst : a.obstacles = []) :
    ∀ (k : ℕ) (x y : Int), 0 ≤ x → x < a.mapSize →
      0 ≤ y → y + (k : ℤ) < a.mapSize → Reach a (x, y) (x, y + (k : ℤ)) := by
  intro k
  induction k with
  | zero =>
    intro x y _ _ _ _
    simpa using Reach.refl (x, y)
  | succ k ih =>
    intro x y hx hx2 hy hy2
    have hb : y + (k : ℤ) < a.mapSize := by push_cast at hy2 ⊢; omega
    have hprev := ih x y hx hx2 hy hb
    have hstep : (x + 0, y + (k : ℤ) + 1) ∈ neighbors a (x, y + (k : ℤ)) :=
      reach_ortho_step a hobst (x, y + (k : ℤ)) (0, 1) (Or.inr (Or.inr (Or.inl rfl)))
        (by omega) (by omega) (by omega) (by push_cast at hy2 ⊢; omega)
    have heq : (x, y + ((k + 1 : ℕ) : ℤ)) = (x + 0, y + (k : ℤ) + 1) := by
      push_cast
      exact Prod.ext (by ring) (by ring)
    rw [heq]
    exact Reach.tail hprev hstep

theorem reach_up (a : Grid) (hobst : a.obstacles = []) :
    ∀ (k : ℕ) (x y : Int), 0 ≤ x → x < a.mapSize →
      0 ≤ y - (k : ℤ) → y < a.mapSize → Reach a (x, y) (x, y - (k : ℤ)) := by
  intro k
  induction k with
  | zero =>
    intro x y _ _ _ _
    simpa using Reach.refl (x, y)
  | succ k ih =>
    intro x y hx hx2 hy hy2
    have hb : 0 ≤ y - (k : ℤ) := by push_cast at hy ⊢; omega
    have hprev := ih x y hx hx2 hb hy2
    have hstep : (x + 0, y - (k : ℤ) + -1) ∈ neighbors a (x, y - (k : ℤ)) :=
      reach_ortho_step a hobst (x, y - (k : ℤ)) (0, -1)
        (Or.inr (Or.inr (Or.inr rfl)))
        (by omega) (by omega) (by push_cast at hy ⊢; omega) (by omega)
    have heq : (x, y - ((k + 1 : ℕ) : ℤ)) = (x + 0, y - (k : ℤ) + -1) := by
      push_cast
      exact Prod.ext (by ring) (by ring)
    rw [heq]
    exact Reach.tail hprev hstep

/-- On an obstacle-free grid any in-bounds cell reaches any other: go
horizontally along the start row, then vertically along the end
column (both `(±1,0)` and `(0,±1)` are available in both parities). -/
theorem reach_free (a : Grid) (hobst : a.obstacles = []) (s e : Coord)
    (hs : isValidCoordinate a s.1 s.2 = true)
    (he : isValidCoordinate a e.1 e.2 = true) : Reach a s e := by
  rw [isValidCoordinate_iff] at hs he
  have hhoriz : Reach a (s.1, s.2) (e.1, s.2) := by
    rcases le_total s.1 e.1 with hle | hle
    · have hk : e.1 = s.1 + (((e.1 - s.1).toNat : ℕ) : ℤ) := by omega
      rw [hk]
      exact reach_right a hobst _ s.1 s.2 hs.1 (by omega) hs.2.2.1 hs.2.2.2
    · have hk : e.1 = s.1 - (((s.1 - e.1).toNat : ℕ) : ℤ) := by omega
      rw [hk]
      exact reach_left a hobst _ s.1 s.2 (by omega) hs.2.1 hs.2.2.1 hs.2.2.2
  have hvert : Reach a (e.1, s.2) (e.1, e.2) := by
    rcases le_total s.2 e.2 with hle | hle
    · have hk : e.2 = s.2 + (((e.2 - s.2).toNat : ℕ) : ℤ) := by omega
      rw [hk]
      exact reach_down a hobst _ e.1 s.2 he.1 he.2.1 hs.2.2.1 (by omega)
    · have hk : e.2 = s.2 - (((s.2 - e.2).toNat : ℕ) : ℤ) := by omega
      rw [hk]
      exact reach_up a hobst _ e.1 s.2 he.1 he.2.1 (by omega) hs.2.2.2
  exact reach_trans hhoriz hvert

theorem closed_under_reach {a : Grid} {closed : List Coord}
    (hclosure : ∀ c ∈ closed, ∀ d ∈ neighbors a c, d ∈ closed)
    {c d : Coord} (hc : c ∈ closed) (h : Reach a c d) : d ∈ closed := by
  induction h with
  | refl => exact hc
  | tail _ hstep ih => exact hclosure _ ih _ hstep

theorem searchLoop_no_null (a : Grid) (s e : Coord) (hreach : Reach a s e) :
    ∀ (fuel : ℕ) (op : List Node) (closed : List Coord),
      LoopInv a s e op closed →
      searchLoop a e fuel op closed ≠ some none := by
  intro fuel
  induction fuel with
  | zero =>
    intro op closed _
    simp [searchLoop]
  | succ fuel ih =>
    intro op closed hinv
    match op with
    | [] =>
      unfold searchLoop
      intro _
      have hs_closed : s ∈ closed := by
        rcases hinv.start_mem with h1 | h1
        · exact absurd h1 (by simp)
        · exact h1
      have hclosure : ∀ c ∈ closed, ∀ d ∈ neighbors a c, d ∈ closed := by
        intro c hc d hd
        rcases hinv.closure c hc d hd with h1 | h1
        · exact absurd h1 (by simp)
        · exact h1
      exact hinv.end_not_closed (closed_under_reach hclosure hs_closed hreach)
    | n :: t =>
      unfold searchLoop
      by_cases hcure : (getMinFNode (n :: t)).x = e.1 ∧ (getMinFNode (n :: t)).y = e.2
      · rw [if_pos hcure]
        simp
      · rw [if_neg hcure]
        dsimp only
        exact ih _ _ (loopInv_step a s e (n :: t) closed hinv (by simp) hcure)

end AStar

namespace Main

/-- Reachability on the `createNodes` adjacency graph. -/
inductive ReachB (w h : Int) (blocked : List Coord) : Coord → Coord → Prop
  | refl (c : Coord) : ReachB w h blocked c c
  | tail {c d f : Coord} : ReachB w h blocked c d →
      f ∈ nodeNeighbors w h blocked d → ReachB w h blocked c f

theorem reachB_trans {w h : Int} {blocked : List Coord} {c d f : Coord}
    (h1 : ReachB w h blocked c d) (h2 : ReachB w h blocked d f) :
    ReachB w h blocked c f := by
  induction h2 with
  | refl => exact h1
  | tail _ hstep ih => exact ReachB.tail ih hstep

theorem mem_nodeNeighbors_free_left (w h : Int) (c : Coord) (hx : 0 < c.1) :
    (c.1 - 1, c.2) ∈ nodeNeighbors w h [] c := by
  unfold nodeNeighbors
  simp [hx]

theorem mem_nodeNeighbors_free_right (w h : Int) (c : Coord) (hx : c.1 < w - 1) :
    (c.1 + 1, c.2) ∈ nodeNeighbors w h [] c := by
  unfold nodeNeighbors
  simp [hx]

theorem mem_nodeNeighbors_free_up (w h : Int) (c : Coord) (hy : 0 < c.2) :
    (c.1, c.2 - 1) ∈ nodeNeighbors w h [] c := by
  unfold nodeNeighbors
  simp [hy]

theorem mem_nodeNeighbors_free_down (w h : Int) (c : Coord) (hy : c.2 < h - 1) :
    (c.1, c.2 + 1) ∈ nodeNeighbors w h [] c := by
  unfold nodeNeighbors
  simp [hy]

theorem reachB_right (w h : Int) :
    ∀ (k : ℕ) (x y : Int), x + (k : ℤ) < w →
      ReachB w h [] (x, y) (x + (k : ℤ), y) := by
  intro k
  induction k with
  | zero =>
    intro x y _
    simpa using ReachB.refl (x, y)
  | succ k ih =>
    intro x y hx2
    have hprev := ih x y (by push_cast at hx2 ⊢; omega)
    have hstep : ((x + (k : ℤ)) + 1, y) ∈ nodeNeighbors w h [] (x + (k : ℤ), y) :=
      mem_nodeNeighbors_free_right w h (x + (k : ℤ), y) (by push_cast at hx2 ⊢; omega)
    have heq : (x + ((k + 1 : ℕ) : ℤ), y) = ((x + (k : ℤ)) + 1, y) := by
      push_cast
      exact Prod.ext (by ring) rfl
    rw [heq]
    exact ReachB.tail hprev hstep

theorem reachB_left (w h : Int) :
    ∀ (k : ℕ) (x y : Int), 0 ≤ x - (k : ℤ) →
      ReachB w h [] (x, y) (x - (k : ℤ), y) := by
  intro k
  induction k with
  | zero =>
    intro x y _
    simpa using ReachB.refl (x, y)
  | succ k ih =>
    intro x y hx
    have hprev := ih x y (by push_cast at hx ⊢; omega)
    have hstep : ((x - (k : ℤ)) - 1, y) ∈ nodeNeighbors w h [] (x - (k : ℤ), y) :=
      mem_nodeNeighbors_free_left w h (x - (k : ℤ), y) (by push_cast at hx ⊢; omega)
    have heq : (x - ((k + 1 : ℕ) : ℤ), y) = ((x - (k : ℤ)) - 1, y) := by
      push_cast
      exact Prod.ext (by ring) rfl
    rw [heq]
    exact ReachB.tail hprev hstep

theorem reachB_down (w h : Int) :
    ∀ (k : ℕ) (x y : Int), y + (k : ℤ) < h →
      ReachB w h [] (x, y) (x, y + (k : ℤ)) := by
  intro k
  induction k with
  | zero =>
    intro x y _
    simpa using ReachB.refl (x, y)
  | succ k ih =>
    intro x y hy2
    have hprev := ih x y (by push_cast at hy2 ⊢; omega)
    have hstep : (x, (y + (k : ℤ)) + 1) ∈ nodeNeighbors w h [] (x, y + (k : ℤ)) :=
      mem_nodeNeighbors_free_down w h (x, y + (k : ℤ)) (by push_cast at hy2 ⊢; omega)
    have heq : (x, y + ((k + 1 : ℕ) : ℤ)) = (x, (y + (k : ℤ)) + 1) := by
      push_cast
      exact Prod.ext rfl (by ring)
    rw [heq]
    exact ReachB.tail hprev hstep

theorem reachB_up (w h : Int) :
    ∀ (k : ℕ) (x y : Int), 0 ≤ y - (k : ℤ) →
      ReachB w h [] (x, y) (x, y - (k : ℤ)) := by
  intro k
  induction k with
  | zero =>
    intro x y _
    simpa using ReachB.refl (x, y)
  | succ k ih =>
    intro x y hy
    have hprev := ih x y (by push_cast at hy ⊢; omega)
    have hstep : (x, (y - (k : ℤ)) - 1) ∈ nodeNeighbors w h [] (x, y - (k : ℤ)) :=
      mem_nodeNeighbors_free_up w h (x, y - (k : ℤ)) (by push_cast at hy ⊢; omega)
    have heq : (x, y - ((k + 1 : ℕ) : ℤ)) = (x, (y - (k : ℤ)) - 1) := by
      push_cast
      exact Prod.ext rfl (by ring)
    rw [heq]
    exact ReachB.tail hprev hstep

/-- The obstacle-free `createNodes` graph is fully connected. -/
theorem reachB_free (w h : Int) (c d : Coord)
    (_hc : 0 ≤ c.1 ∧ c.1 < w ∧ 0 ≤ c.2 ∧ c.2 < h)
    (hd : 0 ≤ d.1 ∧ d.1 < w ∧ 0 ≤ d.2 ∧ d.2 < h) :
    ReachB w h [] c d := by
  have hhoriz : ReachB w h [] (c.1, c.2) (d.1, c.2) := by
    rcases le_total c.1 d.1 with hle | hle
    · have hk : d.1 = c.1 + (((d.1 - c.1).toNat : ℕ) : ℤ) := by omega
      rw [hk]
      exact reachB_right w h _ c.1 c.2 (by omega)
    · have hk : d.1 = c.1 - (((c.1 - d.1).toNat : ℕ) : ℤ) := by omega
      rw [hk]
      exact reachB_left w h _ c.1 c.2 (by omega)
  have hvert : ReachB w h [] (d.1, c.2) (d.1, d.2) := by
    rcases le_total c.2 d.2 with hle | hle
    · have hk : d.2 = c.2 + (((d.2 - c.2).toNat : ℕ) : ℤ) := by omega
      rw [hk]
      exact reachB_down w h _ d.1 c.2 (by omega)
    · have hk : d.2 = c.2 - (((c.2 - d.2).toNat : ℕ) : ℤ) := by omega
      rw [hk]
      exact reachB_up w h _ d.1 c.2 (by omega)
  exact reachB_trans hhoriz hvert

end Main

/-- C6: on an obstacle-free grid `findPath` always returns a path
(never `null`): the search terminates within `loopFuel` iterations, and
if the frontier emptied, the closed set would be closed under the
(fully connected) hexagonal adjacency while containing the start but
not the end — impossible.  Likewise the bucket variant's rectangular
`createNodes` graph is fully connected when no cell is blocked. -/
theorem findPath_free_always_finds (a : AStar.Grid) (s e : Coord)
    (hobst : a.obstacles = [])
    (hs : AStar.isValidCoordinate a s.1 s.2 = true)
    (he : AStar.isValidCoordinate a e.1 e.2 = true) :
    (∃ p, AStar.findPath a s e = .ok (some p)) ∧
    (∀ (w ht : Int) (c d : Coord),
      0 ≤ c.1 ∧ c.1 < w ∧ 0 ≤ c.2 ∧ c.2 < ht →
      0 ≤ d.1 ∧ d.1 < w ∧ 0 ≤ d.2 ∧ d.2 < ht →
      Main.ReachB w ht [] c d) := by
  refine ⟨?_, fun w ht c d hc hd => Main.reachB_free w ht c d hc hd⟩
  have hsp : AStar.isValidPosition a s.1 s.2 = true :=
    AStar.isValidPosition_of a s hs (by simp [hobst])
  have hinv := AStar.loopInv_init a s e hsp
  have hterm := AStar.searchLoop_ne_none a s e (AStar.loopFuel a)
    [AStar.startNode e s] [] hinv (by unfold AStar.loopFuel; omega)
  have hnonull := AStar.searchLoop_no_null a s e
    (AStar.reach_free a hobst s e hs he) (AStar.loopFuel a)
    [AStar.startNode e s] [] hinv
  cases hloop : AStar.searchLoop a e (AStar.loopFuel a) [AStar.startNode e s] [] with
  | none => exact absurd hloop hterm
  | some r =>
    cases r with
    | none => exact absurd hloop hnonull
    | some p =>
      refine ⟨p, ?_⟩
      unfold AStar.findPath
      rw [if_neg (by simp [hs]), if_neg (by simp [he]),
          if_neg (by simp [hobst]), if_neg (by simp [hobst])]
      rw [hloop]
      rfl

/-- Witness for C6 on a concrete 2×2 obstacle-free search. -/
theorem findPath_free_always_finds_witness :
    (∃ p, AStar.findPath ⟨2, []⟩ (0, 0) (1, 1) = .ok (some p)) ∧
    (∀ (w ht : Int) (c d : Coord),
      0 ≤ c.1 ∧ c.1 < w ∧ 0 ≤ c.2 ∧ c.2 < ht →
      0 ≤ d.1 ∧ d.1 < w ∧ 0 ≤ d.2 ∧ d.2 < ht →
      Main.ReachB w ht [] c d) :=
  findPath_free_always_finds ⟨2, []⟩ (0, 0) (1, 1) rfl (by decide) (by decide)

/-!
## C9: scenarios supported by both strategies

A scenario is supported by both strategies when the hexagonal adjacency
of `AStar` and the `createNodes` adjacency of the bucket variant induce
the same passable-cell graph — the same square board, the same obstacle
set, and identical neighbour sets on every passable cell.
-/

namespace AStar

/-- Membership characterisation of the hexagonal neighbour list. -/
theorem mem_neighbors_iff {a : Grid} {c d : Coord} :
    d ∈ neighbors a c ↔
      ∃ dir ∈ (if c.2 % 2 ≠ 0 then oddRowDirections else evenRowDirections),
        d = (c.1 + dir.1, c.2 + dir.2) ∧ isValidPosition a d.1 d.2 = true := by
  unfold neighbors getNeighbors
  simp only [List.mem_filterMap]
  constructor
  · rintro ⟨dir, hdir, hd⟩
    by_cases hv : isValidPosition a ((coordNode c).x + dir.1) ((coordNode c).y + dir.2) = true
    · rw [if_pos hv] at hd
      cases hd
      exact ⟨dir, by simpa [coordNode] using hdir, rfl, hv⟩
    · rw [if_neg hv] at hd
      exact absurd hd (by simp)
  · rintro ⟨dir, hdir, hd, hv⟩
    refine ⟨dir, by simpa [coordNode] using hdir, ?_⟩
    subst hd
    simp [coordNode, hv]

end AStar

namespace Main

theorem mem_ite_singleton {α : Type} {P : Prop} [Decidable P] {x a : α} :
    x ∈ (if P then [a] else ([] : List α)) ↔ P ∧ x = a := by
  split <;> simp_all

/-- Membership characterisation of the `createNodes` neighbour list. -/
theorem mem_nodeNeighbors_iff {w h : Int} {blocked : List Coord} {c d : Coord} :
    d ∈ nodeNeighbors w h blocked c ↔
      ((0 < c.1 ∧ ¬ blocked.contains (c.1 - 1, c.2) = true ∧ d = (c.1 - 1, c.2)) ∨
       (c.1 < w - 1 ∧ ¬ blocked.contains (c.1 + 1, c.2) = true ∧ d = (c.1 + 1, c.2)) ∨
       (0 < c.2 ∧ ¬ blocked.contains (c.1, c.2 - 1) = true ∧ d = (c.1, c.2 - 1)) ∨
       (0 < c.2 ∧ c.1 < w - 1 ∧ ¬ blocked.contains (c.1 + 1, c.2 - 1) = true ∧
         d = (c.1 + 1, c.2 - 1)) ∨
       (c.2 < h - 1 ∧ ¬ blocked.contains (c.1, c.2 + 1) = true ∧ d = (c.1, c.2 + 1)) ∨
       (c.2 < h - 1 ∧ c.1 < w - 1 ∧ ¬ blocked.contains (c.1 + 1, c.2 + 1) = true ∧
         d = (c.1 + 1, c.2 + 1))) := by
  unfold nodeNeighbors
  simp only [List.mem_append, mem_ite_singleton, and_assoc, or_assoc]

end Main

/-- All cells of the `n × n` board. -/
def boardCells (n : Int) : List Coord :=
  (List.range n.toNat).flatMap fun x =>
    (List.range n.toNat).map fun y => (Int.ofNat x, Int.ofNat y)

theorem mem_boardCells {n : Int} {c : Coord} :
    c ∈ boardCells n ↔ 0 ≤ c.1 ∧ c.1 < n ∧ 0 ≤ c.2 ∧ c.2 < n := by
  unfold boardCells
  simp only [List.mem_flatMap, List.mem_map, List.mem_range]
  constructor
  · rintro ⟨x, hx, y, hy, rfl⟩
    refine ⟨?_, ?_, ?_, ?_⟩ <;> simp only [Int.ofNat_eq_coe] <;> omega
  · rintro ⟨h1, h2, h3, h4⟩
    exact ⟨c.1.toNat, by omega, c.2.toNat, by omega,
      Prod.ext (by simp only [Int.ofNat_eq_coe]; omega)
        (by simp only [Int.ofNat_eq_coe]; omega)⟩

/-- A cell that both searches may stand on: in bounds and not an
obstacle. -/
def Passable (a : AStar.Grid) (c : Coord) : Prop :=
  0 ≤ c.1 ∧ c.1 < a.mapSize ∧ 0 ≤ c.2 ∧ c.2 < a.mapSize ∧ c ∉ a.obstacles

theorem isValidPosition_iff {a : AStar.Grid} {c : Coord} :
    AStar.isValidPosition a c.1 c.2 = true ↔ Passable a c := by
  unfold AStar.isValidPosition Passable
  rw [Bool.and_eq_true, AStar.isValidCoordinate_iff]
  constructor
  · rintro ⟨⟨h1, h2, h3, h4⟩, h5⟩
    exact ⟨h1, h2, h3, h4, by simpa using h5⟩
  · rintro ⟨h1, h2, h3, h4, h5⟩
    exact ⟨⟨h1, h2, h3, h4⟩, by simpa using h5⟩

/-- A scenario supported by both strategies: on every passable cell of
the square board, the hexagonal neighbour set and the `createNodes`
neighbour set coincide. -/
def sharedScenario (a : AStar.Grid) : Bool :=
  (boardCells a.mapSize).all fun c =>
    a.obstacles.contains c ||
    ((AStar.neighbors a c).all
      (fun d => (Main.nodeNeighbors a.mapSize a.mapSize a.obstacles c).contains d) &&
     (Main.nodeNeighbors a.mapSize a.mapSize a.obstacles c).all
      (fun d => (AStar.neighbors a c).contains d))

theorem sharedScenario_spec {a : AStar.Grid} (hs : sharedScenario a = true)
    {c : Coord} (hc : Passable a c) :
    ∀ d, d ∈ AStar.neighbors a c ↔
      d ∈ Main.nodeNeighbors a.mapSize a.mapSize a.obstacles c := by
  intro d
  have hmem : c ∈ boardCells a.mapSize :=
    mem_boardCells.mpr ⟨hc.1, hc.2.1, hc.2.2.1, hc.2.2.2.1⟩
  have := List.all_eq_true.mp hs c hmem
  rw [Bool.or_eq_true, Bool.and_eq_true] at this
  rcases this with h1 | ⟨h1, h2⟩
  · exact absurd (by simpa using h1) hc.2.2.2.2
  · constructor
    · intro hd
      simpa using List.all_eq_true.mp h1 d hd
    · intro hd
      simpa using List.all_eq_true.mp h2 d hd

/-- In a shared scenario no two passable cells are diagonally adjacent:
the hexagonal rule has only left-leaning diagonals on even rows and the
`createNodes` rule only right-leaning ones, so a passable diagonal pair
would make the two neighbour sets differ at the even-row cell. -/
theorem shared_no_diagonal {a : AStar.Grid} (hs : sharedScenario a = true) :
    ∀ p q : Coord, Passable a p → Passable a q → p.2 % 2 = 0 →
      (q.1 = p.1 + 1 ∨ q.1 = p.1 - 1) → (q.2 = p.2 + 1 ∨ q.2 = p.2 - 1) →
      False := by
  intro p q hp hq heven hdx hdy
  obtain ⟨hp1, hp2, hp3, hp4, hp5⟩ := hp
  obtain ⟨hq1, hq2, hq3, hq4, hq5⟩ := hq
  have hqvalid : AStar.isValidPosition a q.1 q.2 = true :=
    isValidPosition_iff.mpr ⟨hq1, hq2, hq3, hq4, hq5⟩
  have hqnotobs : ¬ a.obstacles.contains q = true := by simpa using hq5
  rcases hdx with hdx | hdx
  · -- q is a right-diagonal of p: a `createNodes` neighbour but not a hex one
    have hbucket : q ∈ Main.nodeNeighbors a.mapSize a.mapSize a.obstacles p := by
      rw [Main.mem_nodeNeighbors_iff]
      rcases hdy with hdy | hdy
      · refine Or.inr (Or.inr (Or.inr (Or.inr (Or.inr ⟨by omega, by omega, ?_, ?_⟩))))
        · have hqe : q = (p.1 + 1, p.2 + 1) := Prod.ext hdx hdy
          rw [← hqe]
          exact hqnotobs
        · exact Prod.ext hdx hdy
      · refine Or.inr (Or.inr (Or.inr (Or.inl ⟨by omega, by omega, ?_, ?_⟩)))
        · have hqe : q = (p.1 + 1, p.2 - 1) := Prod.ext hdx hdy
          rw [← hqe]
          exact hqnotobs
        · exact Prod.ext hdx hdy
    have hhex := (sharedScenario_spec hs ⟨hp1, hp2, hp3, hp4, hp5⟩ q).mpr hbucket
    rw [AStar.mem_neighbors_iff] at hhex
    obtain ⟨dir, hdir, hd, -⟩ := hhex
    rw [if_neg (by omega)] at hdir
    have h1 : q.1 = p.1 + dir.1 := congrArg Prod.fst hd
    have h2 : q.2 = p.2 + dir.2 := congrArg Prod.snd hd
    simp only [AStar.evenRowDirections, List.mem_cons, List.mem_singleton,
      List.not_mem_nil, or_false] at hdir
    rcases hdir with h | h | h | h | h | h <;> rw [h] at h1 h2 <;>
      simp only at h1 h2 <;> omega
  · -- q is a left-diagonal of p: a hex neighbour but not a `createNodes` one
    have hhex : q ∈ AStar.neighbors a p := by
      rw [AStar.mem_neighbors_iff]
      rcases hdy with hdy | hdy
      · refine ⟨(-1, 1), ?_, Prod.ext (by simpa using hdx) (by simpa using hdy),
          hqvalid⟩
        rw [if_neg (by omega)]
        decide
      · refine ⟨(-1, -1), ?_, Prod.ext (by simpa using hdx) (by simpa using hdy),
          hqvalid⟩
        rw [if_neg (by omega)]
        decide
    have hbucket := (sharedScenario_spec hs ⟨hp1, hp2, hp3, hp4, hp5⟩ q).mp hhex
    rw [Main.mem_nodeNeighbors_iff] at hbucket
    rcases hbucket with ⟨-, -, h⟩ | ⟨-, -, h⟩ | ⟨-, -, h⟩ | ⟨-, -, -, h⟩ | ⟨-, -, h⟩ |
      ⟨-, -, -, h⟩ <;>
      · have h1 := congrArg Prod.fst h
        have h2 := congrArg Prod.snd h
        simp only at h1 h2
        omega

/-- In a shared scenario every hexagonal step between passable cells is
orthogonal (the diagonal directions would create a diagonal passable
pair). -/
theorem shared_step_ortho {a : AStar.Grid} (hs : sharedScenario a = true)
    {c d : Coord} (hc : Passable a c) (hd : d ∈ AStar.neighbors a c) :
    (d.1 - c.1 = 0 ∧ (d.2 - c.2 = 1 ∨ d.2 - c.2 = -1)) ∨
    ((d.1 - c.1 = 1 ∨ d.1 - c.1 = -1) ∧ d.2 - c.2 = 0) := by
  have hdpass : Passable a d :=
    isValidPosition_iff.mp
      (AStar.mem_getNeighbors_valid (a := a) (n := AStar.coordNode c) hd)
  rw [AStar.mem_neighbors_iff] at hd
  obtain ⟨dir, hdir, hdeq, -⟩ := hd
  have h1 : d.1 = c.1 + dir.1 := congrArg Prod.fst hdeq
  have h2 : d.2 = c.2 + dir.2 := congrArg Prod.snd hdeq
  by_cases hpar : c.2 % 2 = 0
  · rw [if_neg (by omega)] at hdir
    simp only [AStar.evenRowDirections, List.mem_cons, List.not_mem_nil,
      or_false] at hdir
    rcases hdir with h | h | h | h | h | h <;> rw [h] at h1 h2 <;>
      simp only at h1 h2
    · exact absurd (shared_no_diagonal hs c d hc hdpass hpar
        (Or.inr (by omega)) (Or.inr (by omega))) not_false
    · omega
    · omega
    · omega
    · exact absurd (shared_no_diagonal hs c d hc hdpass hpar
        (Or.inr (by omega)) (Or.inl (by omega))) not_false
    · omega
  · rw [if_pos (by omega)] at hdir
    simp only [AStar.oddRowDirections, List.mem_cons, List.not_mem_nil,
      or_false] at hdir
    rcases hdir with h | h | h | h | h | h <;> rw [h] at h1 h2 <;>
      simp only at h1 h2
    · omega
    · refine absurd (shared_no_diagonal hs d c hdpass hc (by omega)
        (Or.inr (by omega)) (Or.inl (by omega))) not_false
    · omega
    · refine absurd (shared_no_diagonal hs d c hdpass hc (by omega)
        (Or.inr (by omega)) (Or.inr (by omega))) not_false
    · omega
    · omega

/-- Lists advancing by a constant offset at every step. -/
def StepsConst (δ : Coord) : List Coord → Prop
  | [] => True
  | [_] => True
  | c :: d :: t => d = (c.1 + δ.1, c.2 + δ.2) ∧ StepsConst δ (d :: t)

/-- A duplicate-free walk between passable cells of a shared scenario
never turns: two consecutive steps in different directions would either
revisit a cell or create a diagonal passable pair. -/
theorem walk_straight {a : AStar.Grid} (hs : sharedScenario a = true) :
    ∀ l : List Coord, (∀ c ∈ l, Passable a c) →
      l.Chain' (fun c d => d ∈ AStar.neighbors a c) → l.Nodup →
      l.length ≤ 1 ∨ ∃ δ : Coord,
        ((δ.1 = 0 ∧ (δ.2 = 1 ∨ δ.2 = -1)) ∨ ((δ.1 = 1 ∨ δ.1 = -1) ∧ δ.2 = 0)) ∧
        StepsConst δ l := by
  intro l
  induction l with
  | nil => intro _ _ _; exact Or.inl (by simp)
  | cons c t iht =>
    intro hpass hchain hnd
    match t, hchain, hnd with
    | [], _, _ => exact Or.inl (by simp)
    | d :: t2, hchain, hnd =>
      rw [List.chain'_cons] at hchain
      have hcpass : Passable a c := hpass c (by simp)
      have hdpass : Passable a d := hpass d (by simp)
      have hstep := shared_step_ortho hs hcpass hchain.1
      have hδ0 : ((d.1 - c.1 = 0 ∧ (d.2 - c.2 = 1 ∨ d.2 - c.2 = -1)) ∨
          ((d.1 - c.1 = 1 ∨ d.1 - c.1 = -1) ∧ d.2 - c.2 = 0)) := hstep
      have hnd2 : (d :: t2).Nodup := hnd.of_cons
      rcases iht (fun x hx => hpass x (List.mem_cons_of_mem c hx))
          hchain.2 hnd2 with hlen | ⟨δ, hδ, hsteps⟩
      · have ht2 : t2 = [] := by
          simpa using List.length_eq_zero.mp (by simpa using hlen)
        subst ht2
        refine Or.inr ⟨(d.1 - c.1, d.2 - c.2), by simpa using hδ0,
          ⟨Prod.ext (by simp) (by simp), trivial⟩⟩
      · match t2, hsteps with
        | [], _ =>
          refine Or.inr ⟨(d.1 - c.1, d.2 - c.2), by simpa using hδ0,
            ⟨Prod.ext (by simp) (by simp), trivial⟩⟩
        | e :: t3, hsteps =>
          obtain ⟨hde, hsteps2⟩ := hsteps
          have he1 : e.1 = d.1 + δ.1 := congrArg Prod.fst hde
          have he2 : e.2 = d.2 + δ.2 := congrArg Prod.snd hde
          have hepass : Passable a e := hpass e (by simp)
          have hsame : d.1 - c.1 = δ.1 ∧ d.2 - c.2 = δ.2 := by
            by_contra hdiff
            rcases hδ0 with ⟨hu, hv⟩ | ⟨hu, hv⟩ <;>
              rcases hδ with ⟨hu2, hv2⟩ | ⟨hu2, hv2⟩
            · have hce : e = c ∨ (d.1 - c.1 = δ.1 ∧ d.2 - c.2 = δ.2) := by
                rcases hv with h | h <;> rcases hv2 with h2 | h2 <;>
                  first
                    | exact Or.inr ⟨by omega, by omega⟩
                    | exact Or.inl (Prod.ext (by omega) (by omega))
              rcases hce with h | h
              · exact (List.nodup_cons.mp hnd).1 (by simp [h.symm])
              · exact hdiff h
            · by_cases hpar : c.2 % 2 = 0
              · exact shared_no_diagonal hs c e hcpass hepass hpar
                  (by omega) (by omega)
              · exact shared_no_diagonal hs e c hepass hcpass (by omega)
                  (by omega) (by omega)
            · by_cases hpar : c.2 % 2 = 0
              · exact shared_no_diagonal hs c e hcpass hepass hpar
                  (by omega) (by omega)
              · exact shared_no_diagonal hs e c hepass hcpass (by omega)
                  (by omega) (by omega)
            · have hce : e = c ∨ (d.1 - c.1 = δ.1 ∧ d.2 - c.2 = δ.2) := by
                rcases hu with h | h <;> rcases hu2 with h2 | h2 <;>
                  first
                    | exact Or.inr ⟨by omega, by omega⟩
                    | exact Or.inl (Prod.ext (by omega) (by omega))
              rcases hce with h | h
              · exact (List.nodup_cons.mp hnd).1 (by simp [h.symm])
              · exact hdiff h
          exact Or.inr ⟨δ, hδ,
            ⟨Prod.ext (by omega) (by omega), ⟨hde, hsteps2⟩⟩⟩

theorem stepsConst_getLast (δ : Coord) :
    ∀ l : List Coord, StepsConst δ l → ∀ x, l.head? = some x →
      ∀ y, l.getLast? = some y →
      y.1 = x.1 + δ.1 * ((l.length : ℤ) - 1) ∧
      y.2 = x.2 + δ.2 * ((l.length : ℤ) - 1) := by
  intro l
  induction l with
  | nil => intro _ x hx; exact absurd hx (by simp)
  | cons c t iht =>
    intro hsteps x hx y hy
    have hxc : x = c := by simpa using hx.symm
    subst hxc
    match t, hsteps, hy with
    | [], _, hy =>
      have hyc : y = x := by simpa using hy.symm
      subst hyc
      simp
    | d :: t2, hsteps, hy =>
      obtain ⟨hde, hsteps2⟩ := hsteps
      have hy2 : (d :: t2).getLast? = some y := by
        rw [← hy]
        exact (List.getLast?_cons_cons).symm
      have hrec := iht hsteps2 d (by simp) y hy2
      have hd1 : d.1 = x.1 + δ.1 := congrArg Prod.fst hde
      have hd2 : d.2 = x.2 + δ.2 := congrArg Prod.snd hde
      constructor
      · rw [hrec.1, hd1]
        simp only [List.length_cons]
        push_cast
        ring
      · rw [hrec.2, hd2]
        simp only [List.length_cons]
        push_cast
        ring

/-- The length of any simple walk between passable cells of a shared
scenario is fixed by its endpoints: the Manhattan distance plus one. -/
theorem walk_length {a : AStar.Grid} (hs : sharedScenario a = true)
    {l : List Coord} (hpass : ∀ c ∈ l, Passable a c)
    (hchain : l.Chain' (fun c d => d ∈ AStar.neighbors a c)) (hnd : l.Nodup)
    {x y : Coord} (hx : l.head? = some x) (hy : l.getLast? = some y) :
    (l.length : ℤ) = |y.1 - x.1| + |y.2 - x.2| + 1 := by
  rcases walk_straight hs l hpass hchain hnd with hlen | ⟨δ, hδ, hsteps⟩
  · match l, hx, hy, hlen with
    | [z], hx, hy, _ =>
      have h1 : x = z := by simpa using hx.symm
      have h2 : y = z := by simpa using hy.symm
      subst h1; subst h2
      simp
  · have hends := stepsConst_getLast δ l hsteps x hx y hy
    have hlpos : (1 : ℤ) ≤ (l.length : ℤ) := by
      cases l with
      | nil => exact absurd hx (by simp)
      | cons _ _ => rw [List.length_cons]; push_cast; omega
    rcases hδ with ⟨hu, hv⟩ | ⟨hu, hv⟩
    · have e1 : y.1 - x.1 = 0 := by rw [hends.1, hu]; ring
      rcases hv with h | h
      · have e2 : y.2 - x.2 = (l.length : ℤ) - 1 := by rw [hends.2, h]; ring
        rw [e1, e2, abs_zero, abs_of_nonneg (by omega)]
        ring
      · have e2 : y.2 - x.2 = -((l.length : ℤ) - 1) := by rw [hends.2, h]; ring
        rw [e1, e2, abs_zero, abs_neg, abs_of_nonneg (by omega)]
        ring
    · have e2 : y.2 - x.2 = 0 := by rw [hends.2, hv]; ring
      rcases hu with h | h
      · have e1 : y.1 - x.1 = (l.length : ℤ) - 1 := by rw [hends.1, h]; ring
        rw [e1, e2, abs_zero, abs_of_nonneg (by omega)]
        ring
      · have e1 : y.1 - x.1 = -((l.length : ℤ) - 1) := by rw [hends.1, h]; ring
        rw [e1, e2, abs_zero, abs_neg, abs_of_nonneg (by omega)]
        ring

/-!
### Bridges between the Boolean chain predicates and `List.Chain'`
-/

namespace AStar

theorem chainOk_iff_chain (a : Grid) :
    ∀ l : List Coord, chainOk a l = true ↔
      l.Chain' (fun c d => d ∈ neighbors a c) := by
  intro l
  induction l with
  | nil => simp [chainOk]
  | cons c t ih =>
    cases t with
    | nil => simp [chainOk]
    | cons d t2 =>
      rw [List.chain'_cons]
      show ((neighbors a c).contains d && chainOk a (d :: t2)) = true ↔ _
      rw [Bool.and_eq_true, ih]
      constructor
      · rintro ⟨h1, h2⟩
        exact ⟨by simpa using h1, h2⟩
      · rintro ⟨h1, h2⟩
        exact ⟨by simpa using h1, h2⟩

/-- A hexagonal chain between two cells yields reachability. -/
theorem chain_reach (a : Grid) :
    ∀ l : List Coord, l.Chain' (fun c d => d ∈ neighbors a c) →
      ∀ x y, l.head? = some x → l.getLast? = some y → Reach a x y := by
  intro l
  induction l with
  | nil => intro _ x y hx; exact absurd hx (by simp)
  | cons c t ih =>
    intro hchain x y hx hy
    have hxc : x = c := by simpa using hx.symm
    cases t with
    | nil =>
      have hyc : y = c := by simpa using hy.symm
      rw [hxc, hyc]
      exact Reach.refl c
    | cons d t2 =>
      rw [List.chain'_cons] at hchain
      have hy2 : (d :: t2).getLast? = some y := by
        rw [← hy]
        exact (List.getLast?_cons_cons).symm
      have hrest := ih hchain.2 d y (by simp) hy2
      rw [hxc]
      exact reach_trans (Reach.tail (Reach.refl c) hchain.1) hrest

/-- Every cell reachable from a passable cell is passable. -/
theorem reach_passable {a : Grid} {s d : Coord} (hsp : Passable a s)
    (h : Reach a s d) : Passable a d := by
  induction h with
  | refl => exact hsp
  | tail _ hstep _ =>
    exact isValidPosition_iff.mp (mem_getNeighbors_valid hstep)

end AStar

namespace Main

theorem revChainOk_iff_chain (G : Coord → List Coord) :
    ∀ l : List Coord, revChainOk G l = true ↔
      l.Chain' (fun c d => c ∈ G d) := by
  intro l
  induction l with
  | nil => simp [revChainOk]
  | cons c t ih =>
    cases t with
    | nil => simp [revChainOk]
    | cons d t2 =>
      rw [List.chain'_cons]
      show ((G d).contains c && revChainOk G (d :: t2)) = true ↔ _
      rw [Bool.and_eq_true, ih]
      constructor
      · rintro ⟨h1, h2⟩
        exact ⟨by simpa using h1, h2⟩
      · rintro ⟨h1, h2⟩
        exact ⟨by simpa using h1, h2⟩

/-- A reverse discovery chain yields reachability from its last element
back to its head. -/
theorem revChain_reachB (w h : Int) (blocked : List Coord) :
    ∀ l : List Coord, l.Chain' (fun c d => c ∈ nodeNeighbors w h blocked d) →
      ∀ x y, l.head? = some x → l.getLast? = some y →
        ReachB w h blocked y x := by
  intro l
  induction l with
  | nil => intro _ x y hx; exact absurd hx (by simp)
  | cons c t ih =>
    intro hchain x y hx hy
    have hxc : x = c := by simpa using hx.symm
    cases t with
    | nil =>
      have hyc : y = c := by simpa using hy.symm
      rw [hxc, hyc]
      exact ReachB.refl c
    | cons d t2 =>
      rw [List.chain'_cons] at hchain
      have hy2 : (d :: t2).getLast? = some y := by
        rw [← hy]
        exact (List.getLast?_cons_cons).symm
      rw [hxc]
      exact ReachB.tail (ih hchain.2 d y (by simp) hy2) hchain.1

/-- `createNodes` neighbours of a passable cell of the square board are
passable. -/
theorem nodeNeighbors_passable {a : AStar.Grid} {c d : Coord}
    (hc : Passable a c)
    (hd : d ∈ nodeNeighbors a.mapSize a.mapSize a.obstacles c) :
    Passable a d := by
  obtain ⟨h1, h2, h3, h4, h5⟩ := hc
  rw [mem_nodeNeighbors_iff] at hd
  rcases hd with ⟨hb, hobs, heq⟩ | ⟨hb, hobs, heq⟩ | ⟨hb, hobs, heq⟩ |
      ⟨hb, hb2, hobs, heq⟩ | ⟨hb, hobs, heq⟩ | ⟨hb, hb2, hobs, heq⟩ <;>
    subst heq <;>
    exact ⟨by simp only; omega, by simp only; omega, by simp only; omega,
      by simp only; omega, by simpa using hobs⟩

/-- Every cell bucket-reachable from a passable cell is passable. -/
theorem reachB_passable {a : AStar.Grid} {s d : Coord} (hsp : Passable a s)
    (h : ReachB a.mapSize a.mapSize a.obstacles s d) : Passable a d := by
  induction h with
  | refl => exact hsp
  | tail _ hstep ih => exact nodeNeighbors_passable ih hstep

/-- A set of cells closed under the `createNodes` adjacency contains
everything bucket-reachable from its members. -/
theorem reachB_closed {w h : Int} {blocked : List Coord} {S : Coord → Prop}
    (hcl : ∀ c, S c → ∀ d ∈ nodeNeighbors w h blocked c, S d)
    {c d : Coord} (hc : S c) (hr : ReachB w h blocked c d) : S d := by
  induction hr with
  | refl => exact hc
  | tail _ hstep ih => exact hcl _ ih _ hstep

end Main

/-- On a shared scenario the two adjacency relations generate the same
reachability between passable cells. -/
theorem reach_iff_reachB {a : AStar.Grid} (hs : sharedScenario a = true)
    {s e : Coord} (hsp : Passable a s) :
    AStar.Reach a s e ↔ Main.ReachB a.mapSize a.mapSize a.obstacles s e := by
  constructor
  · intro h
    induction h with
    | refl => exact Main.ReachB.refl _
    | tail hprev hstep ih =>
      exact Main.ReachB.tail ih
        ((sharedScenario_spec hs (AStar.reach_passable hsp hprev) _).mp hstep)
  · intro h
    induction h with
    | refl => exact AStar.Reach.refl _
    | tail hprev hstep ih =>
      exact AStar.Reach.tail ih
        ((sharedScenario_spec hs (Main.reachB_passable hsp hprev) _).mpr hstep)

/-- In a shared scenario a `createNodes` step changes the Manhattan
estimate to the goal by exactly one. -/
theorem get_cost_step {a : AStar.Grid} (hs : sharedScenario a = true)
    {c d : Coord} (hc : Passable a c) (e : Coord)
    (hd : d ∈ Main.nodeNeighbors a.mapSize a.mapSize a.obstacles c) :
    Main.get_cost d.1 d.2 e.1 e.2 = Main.get_cost c.1 c.2 e.1 e.2 + 1 ∨
    Main.get_cost d.1 d.2 e.1 e.2 = Main.get_cost c.1 c.2 e.1 e.2 - 1 := by
  have hdhex : d ∈ AStar.neighbors a c := (sharedScenario_spec hs hc d).mpr hd
  have h := shared_step_ortho hs hc hdhex
  unfold Main.get_cost
  simp only [Int.abs_eq_natAbs]
  rcases h with ⟨h1, h2 | h2⟩ | ⟨h1 | h1, h2⟩ <;> omega

/-!
### Bucket-state helpers: stamping, entry lookup, slot values
-/

namespace Main

/-- A cell carrying this search's token: its node state was recorded. -/
def stamped (v : List (Coord × BEntry)) (c : Coord) : Prop :=
  (v.find? (fun p => p.1 = c)).isSome = true

/-- The `f`-value of a cell in the current search state: Manhattan
estimate to the goal plus the recorded cost. -/
def fval (v : List (Coord × BEntry)) (e c : Coord) : Int :=
  get_cost c.1 c.2 e.1 e.2 + (lookupEntry v c).cost

theorem stamped_iff_mem_keys {v : List (Coord × BEntry)} {c : Coord} :
    stamped v c ↔ c ∈ v.map Prod.fst := by
  unfold stamped
  rw [List.find?_isSome]
  constructor
  · rintro ⟨p, hp, hpc⟩
    exact List.mem_map.mpr ⟨p, hp, by simpa using hpc⟩
  · intro h
    rcases List.mem_map.mp h with ⟨p, hp, hpc⟩
    exact ⟨p, hp, by simpa using hpc⟩

theorem stamped_append {v : List (Coord × BEntry)} {i : Coord} {E : BEntry}
    {c : Coord} : stamped (v ++ [(i, E)]) c ↔ stamped v c ∨ c = i := by
  rw [stamped_iff_mem_keys, stamped_iff_mem_keys]
  simp

theorem stamped_elim {v : List (Coord × BEntry)} {c : Coord}
    (h : stamped v c) : ∃ p ∈ v, p.1 = c := by
  unfold stamped at h
  rw [List.find?_isSome] at h
  rcases h with ⟨p, hp, hpc⟩
  exact ⟨p, hp, by simpa using hpc⟩

theorem lookupEntry_append_of_stamped {v : List (Coord × BEntry)} {i : Coord}
    {E : BEntry} {c : Coord} (h : stamped v c) :
    lookupEntry (v ++ [(i, E)]) c = lookupEntry v c := by
  have h2 : (v.find? (fun p => p.1 = c)).isSome = true := h
  unfold lookupEntry
  rw [List.find?_append]
  cases hf : v.find? (fun p => p.1 = c) with
  | none => rw [hf] at h2; exact absurd h2 (by simp)
  | some p => simp [Option.or]

theorem lookupEntry_append_of_ne {v : List (Coord × BEntry)} {i : Coord}
    {E : BEntry} {c : Coord} (hne : c ≠ i) :
    lookupEntry (v ++ [(i, E)]) c = lookupEntry v c := by
  unfold lookupEntry
  rw [List.find?_append]
  cases hf : v.find? (fun p => p.1 = c) with
  | some p => simp [Option.or]
  | none =>
    simp only [Option.or, List.find?_cons, List.find?_nil]
    have : ¬ ((i, E).1 = c) := fun hic => hne hic.symm
    simp [this]

theorem lookupEntry_append_self {v : List (Coord × BEntry)} {i : Coord}
    {E : BEntry} (h : ¬ stamped v i) :
    lookupEntry (v ++ [(i, E)]) i = E := by
  unfold lookupEntry
  rw [List.find?_append]
  cases hf : v.find? (fun p => p.1 = i) with
  | some p =>
    exact absurd (show stamped v i from by simp [stamped, hf]) h
  | none =>
    simp only [Option.or, List.find?_cons, List.find?_nil]
    simp

theorem fval_append_of_stamped {v : List (Coord × BEntry)} {i : Coord}
    {E : BEntry} {e c : Coord} (h : stamped v c) :
    fval (v ++ [(i, E)]) e c = fval v e c := by
  unfold fval
  rw [lookupEntry_append_of_stamped h]

theorem pushSlot_mem_self {o : BOpens} {idx : Int} {i : Coord} {o2 : BOpens}
    (h : pushSlot o idx i = some o2) : inBuckets o2 i := by
  unfold pushSlot at h
  split_ifs at h <;> cases h <;>
    simp [inBuckets]

theorem pushSlot_zero (o : BOpens) (i : Coord) :
    pushSlot o 0 i = some { o with b0 := o.b0 ++ [i] } := by
  norm_num [pushSlot]

theorem pushSlot_two (o : BOpens) (i : Coord) :
    pushSlot o 2 i = some { o with b2 := o.b2 ++ [i] } := by
  norm_num [pushSlot]

end Main

namespace AStar

/-- `findPath` from a valid non-obstacle cell to itself returns the
single-node path (the seeded start node is popped first and equals the
end). -/
theorem findPath_self (a : Grid) (s : Coord)
    (hs : isValidCoordinate a s.1 s.2 = true) (hobs : s ∉ a.obstacles) :
    findPath a s s = .ok (some [(s, 0)]) := by
  unfold findPath
  rw [if_neg (by simp [hs]), if_neg (by simp [hs]), if_neg (by simp [hobs]),
      if_neg (by simp [hobs])]
  unfold loopFuel
  rw [searchLoop]
  simp [getMinFNode, startNode]

/-!
### Duplicate-freedom of the chains stored in open nodes

Each open node's stored chain visits its own cell last and otherwise
only closed cells, so the chain never repeats a coordinate.
-/

/-- The stored chain of a node is duplicate-free, and all its cells
except the node's own are closed. -/
def PathCellsOk (closed : List Coord) (n : Node) : Prop :=
  (n.path.map Prod.fst).Nodup ∧
  ∀ c ∈ n.path.map Prod.fst, c = n.coord ∨ c ∈ closed

theorem processNeighbor_paths (e : Coord) (cur : Node) (closed : List Coord)
    (op : List Node) (nb : Coord)
    (hop : ∀ n ∈ op, PathCellsOk closed n)
    (hcnd : (cur.path.map Prod.fst).Nodup)
    (hccells : ∀ c ∈ cur.path.map Prod.fst, c ∈ closed) :
    ∀ n ∈ processNeighbor e cur closed op nb, PathCellsOk closed n := by
  by_cases hclosed : closed.contains nb = true
  · have hres : processNeighbor e cur closed op nb = op := by
      unfold processNeighbor
      rw [if_pos hclosed]
    rw [hres]
    exact hop
  · have hnbclosed : nb ∉ closed := fun hmem => hclosed (by simpa using hmem)
    have hnewPath :
        ((cur.path ++ [(nb, cur.g + 1)]).map Prod.fst).Nodup ∧
        ∀ c ∈ (cur.path ++ [(nb, cur.g + 1)]).map Prod.fst,
          c = nb ∨ c ∈ closed := by
      constructor
      · simp only [List.map_append, List.map_cons, List.map_nil]
        rw [List.nodup_append]
        refine ⟨hcnd, by simp, ?_⟩
        intro c hc hcnb
        have : c = nb := by simpa using hcnb
        exact hnbclosed (this ▸ hccells c hc)
      · intro c hc
        simp only [List.map_append, List.map_cons, List.map_nil,
          List.mem_append, List.mem_singleton] at hc
        rcases hc with h1 | h1
        · exact Or.inr (hccells c h1)
        · exact Or.inl h1
    cases hfind : op.find? (fun n => n.x = nb.1 ∧ n.y = nb.2) with
    | none =>
      have hres : processNeighbor e cur closed op nb = op ++
          [{ x := nb.1, y := nb.2, g := cur.g + 1,
             h := calculateHeuristic e nb.1 nb.2,
             f := (cur.g + 1 : Int) + calculateHeuristic e nb.1 nb.2,
             path := cur.path ++ [(nb, cur.g + 1)] }] := by
        unfold processNeighbor
        rw [if_neg hclosed, hfind]
      rw [hres]
      intro n hn
      rcases List.mem_append.mp hn with h1 | h1
      · exact hop n h1
      · rw [List.mem_singleton.mp h1]
        exact ⟨hnewPath.1, fun c hc => hnewPath.2 c hc⟩
    | some ex =>
      obtain ⟨hexmem, hexcoord⟩ := find?_coord_some hfind
      by_cases himp : cur.g + 1 < ex.g
      · have hres : processNeighbor e cur closed op nb = updateFirst op nb
            { ex with g := cur.g + 1, f := ((cur.g + 1 : Int) : ℚ) + ex.h,
                      path := cur.path ++ [(nb, cur.g + 1)] } := by
          unfold processNeighbor
          rw [if_neg hclosed, hfind]
          dsimp only
          rw [if_pos himp]
        rw [hres]
        intro n hn
        rcases updateFirst_mem hn with h1 | h1
        · exact hop n h1
        · rw [h1]
          refine ⟨hnewPath.1, fun c hc => ?_⟩
          rcases hnewPath.2 c hc with h2 | h2
          · exact Or.inl (by rw [h2, ← hexcoord]; rfl)
          · exact Or.inr h2
      · have hres : processNeighbor e cur closed op nb = op := by
          unfold processNeighbor
          rw [if_neg hclosed, hfind]
          dsimp only
          rw [if_neg himp]
        rw [hres]
        exact hop

theorem processFold_paths (e : Coord) (cur : Node) (closed : List Coord)
    (hcnd : (cur.path.map Prod.fst).Nodup)
    (hccells : ∀ c ∈ cur.path.map Prod.fst, c ∈ closed) :
    ∀ (nbs : List Coord) (op : List Node),
      (∀ n ∈ op, PathCellsOk closed n) →
      ∀ n ∈ nbs.foldl (processNeighbor e cur closed) op, PathCellsOk closed n := by
  intro nbs
  induction nbs with
  | nil => intro op hop; exact hop
  | cons nb rest ih =>
    intro op hop
    rw [List.foldl_cons]
    exact ih _ (processNeighbor_paths e cur closed op nb hop hcnd hccells)

theorem pathCellsOk_mono {closed closed2 : List Coord} {n : Node}
    (hsub : ∀ c ∈ closed, c ∈ closed2) (h : PathCellsOk closed n) :
    PathCellsOk closed2 n := by
  refine ⟨h.1, fun c hc => ?_⟩
  rcases h.2 c hc with h1 | h1
  · exact Or.inl h1
  · exact Or.inr (hsub c h1)

/-- Any chain returned by the main loop is duplicate-free. -/
theorem searchLoop_path_nodup (a : Grid) (e : Coord) :
    ∀ (fuel : ℕ) (op : List Node) (closed : List Coord),
      (∀ n ∈ op, PathCellsOk closed n) →
      ∀ p, searchLoop a e fuel op closed = some (some p) →
        (p.map Prod.fst).Nodup := by
  intro fuel
  induction fuel with
  | zero =>
    intro op closed _ p hp
    exact absurd hp (by simp [searchLoop])
  | succ fuel ih =>
    intro op closed hop p hp
    match op with
    | [] =>
      unfold searchLoop at hp
      exact absurd hp (by simp)
    | n :: t =>
      unfold searchLoop at hp
      by_cases hcure : (getMinFNode (n :: t)).x = e.1 ∧ (getMinFNode (n :: t)).y = e.2
      · rw [if_pos hcure] at hp
        have hpeq : (getMinFNode (n :: t)).path = p :=
          Option.some.inj (Option.some.inj hp)
        exact hpeq ▸ (hop _ (getMinFNode_mem (n :: t) (by simp))).1
      · rw [if_neg hcure] at hp
        dsimp only at hp
        have hcur := hop _ (getMinFNode_mem (n :: t) (by simp))
        refine ih _ _ ?_ p hp
        refine processFold_paths e (getMinFNode (n :: t)) _ hcur.1 ?_ _ _ ?_
        · intro c hc
          rcases hcur.2 c hc with h1 | h1
          · exact List.mem_append_right _ (by simp [h1, Node.coord])
          · exact List.mem_append_left _ h1
        · intro m hm
          refine pathCellsOk_mono (fun c hc => List.mem_append_left _ hc)
            (hop m (removeFromOpenList_subset hm))

end AStar

/-!
### The bucket-search invariant on shared scenarios

On a shared scenario the Manhattan estimate changes by exactly one per
step, so every pushed bucket index lands in slot 0 or 2 of the ring:
the `TypeError` of C8 cannot fire.  The invariant also tracks the facts
needed for the null-return and returned-path cases.
-/

namespace Main

theorem pushSlot_mono {o : BOpens} {idx : Int} {i : Coord} {o2 : BOpens}
    (h : pushSlot o idx i = some o2) :
    ∀ c, inBuckets o c → inBuckets o2 c := by
  intro c hc
  unfold pushSlot at h
  split_ifs at h <;> cases h <;>
    simp only [inBuckets, List.mem_append, List.mem_singleton] at hc ⊢ <;> tauto

/-- The invariant of the expansion loop (`for (let i of cur.nodes)`),
relative to the cell `cur` currently being expanded. -/
structure EInv (a : AStar.Grid) (s e cur : Coord) (base : Int) (o : BOpens)
    (v : List (Coord × BEntry)) : Prop where
  keys_nodup : (v.map Prod.fst).Nodup
  bucket_stamp : ∀ c, inBuckets o c → c = s ∨ stamped v c
  bucket_pass : ∀ c, inBuckets o c → Passable a c
  slot0 : ∀ c ∈ o.b0, fval v e c = base
  slot1 : ∀ c ∈ o.b1, fval v e c = base + 1
  slot2 : ∀ c ∈ o.b2, fval v e c = base + 2
  slot3 : ∀ c ∈ o.b3, fval v e c = base + 3
  start_fresh : ¬ stamped v s → ¬ inBuckets o s
  stamped_pass : ∀ p ∈ v, Passable a p.1
  rpath_nodup : ∀ p ∈ v, p.2.rpath.Nodup
  rpath_stamped : ∀ p ∈ v, ∀ c ∈ p.2.rpath, stamped v c
  closed_exp : ∀ p ∈ v, p.1 = cur ∨ inBuckets o p.1 ∨
    ∀ i ∈ nodeNeighbors a.mapSize a.mapSize a.obstacles p.1, stamped v i
  start_exp : s = cur ∨ inBuckets o s ∨
    ∀ i ∈ nodeNeighbors a.mapSize a.mapSize a.obstacles s, stamped v i
  end_open : stamped v e → inBuckets o e

/-- Stamping one unvisited cell and pushing it into its slot preserves
the expansion invariant. -/
theorem einv_push {a : AStar.Grid} {s e cur : Coord} {base : Int}
    {o : BOpens} {v : List (Coord × BEntry)} {i : Coord} {E0cost : Int}
    {tail : List Coord} {idx : Int} {o3 : BOpens}
    (hinv : EInv a s e cur base o v)
    (hipass : Passable a i)
    (hinot : ¬ stamped v i)
    (htail_nodup : tail.Nodup)
    (htail_stamped : ∀ c ∈ tail, stamped v c)
    (hpush : pushSlot o idx i = some o3)
    (hfv : get_cost i.1 i.2 e.1 e.2 + E0cost = base + idx) :
    EInv a s e cur base o3 (v ++ [(i, ⟨E0cost, i :: tail⟩)]) := by
  have hintail : i ∉ tail := fun hmem => hinot (htail_stamped i hmem)
  have hikeys : i ∉ v.map Prod.fst := fun h => hinot (stamped_iff_mem_keys.mpr h)
  have hstable : ∀ c, inBuckets o c → fval (v ++ [(i, ⟨E0cost, i :: tail⟩)]) e c =
      fval v e c := by
    intro c hc
    rcases hinv.bucket_stamp c hc with h1 | h1
    · subst h1
      by_cases hss : stamped v c
      · exact fval_append_of_stamped hss
      · exact absurd hc (hinv.start_fresh hss)
    · exact fval_append_of_stamped h1
  have hfvi : fval (v ++ [(i, ⟨E0cost, i :: tail⟩)]) e i = base + idx := by
    unfold fval
    rw [lookupEntry_append_self hinot]
    exact hfv
  have hslots :
      (∀ c ∈ o3.b0, fval (v ++ [(i, ⟨E0cost, i :: tail⟩)]) e c = base) ∧
      (∀ c ∈ o3.b1, fval (v ++ [(i, ⟨E0cost, i :: tail⟩)]) e c = base + 1) ∧
      (∀ c ∈ o3.b2, fval (v ++ [(i, ⟨E0cost, i :: tail⟩)]) e c = base + 2) ∧
      (∀ c ∈ o3.b3, fval (v ++ [(i, ⟨E0cost, i :: tail⟩)]) e c = base + 3) := by
    unfold pushSlot at hpush
    split_ifs at hpush with hi0 hi1 hi2 hi3
    · cases hpush
      refine ⟨?_, ?_, ?_, ?_⟩
      · intro c hc
        rcases List.mem_append.mp hc with h1 | h1
        · rw [hstable c (Or.inl h1)]
          exact hinv.slot0 c h1
        · rw [List.mem_singleton.mp h1, hfvi, hi0]
          ring
      · intro c hc
        rw [hstable c (Or.inr (Or.inl hc))]
        exact hinv.slot1 c hc
      · intro c hc
        rw [hstable c (Or.inr (Or.inr (Or.inl hc)))]
        exact hinv.slot2 c hc
      · intro c hc
        rw [hstable c (Or.inr (Or.inr (Or.inr hc)))]
        exact hinv.slot3 c hc
    · cases hpush
      refine ⟨?_, ?_, ?_, ?_⟩
      · intro c hc
        rw [hstable c (Or.inl hc)]
        exact hinv.slot0 c hc
      · intro c hc
        rcases List.mem_append.mp hc with h1 | h1
        · rw [hstable c (Or.inr (Or.inl h1))]
          exact hinv.slot1 c h1
        · rw [List.mem_singleton.mp h1, hfvi, hi1]
      · intro c hc
        rw [hstable c (Or.inr (Or.inr (Or.inl hc)))]
        exact hinv.slot2 c hc
      · intro c hc
        rw [hstable c (Or.inr (Or.inr (Or.inr hc)))]
        exact hinv.slot3 c hc
    · cases hpush
      refine ⟨?_, ?_, ?_, ?_⟩
      · intro c hc
        rw [hstable c (Or.inl hc)]
        exact hinv.slot0 c hc
      · intro c hc
        rw [hstable c (Or.inr (Or.inl hc))]
        exact hinv.slot1 c hc
      · intro c hc
        rcases List.mem_append.mp hc with h1 | h1
        · rw [hstable c (Or.inr (Or.inr (Or.inl h1)))]
          exact hinv.slot2 c h1
        · rw [List.mem_singleton.mp h1, hfvi, hi2]
      · intro c hc
        rw [hstable c (Or.inr (Or.inr (Or.inr hc)))]
        exact hinv.slot3 c hc
    · cases hpush
      refine ⟨?_, ?_, ?_, ?_⟩
      · intro c hc
        rw [hstable c (Or.inl hc)]
        exact hinv.slot0 c hc
      · intro c hc
        rw [hstable c (Or.inr (Or.inl hc))]
        exact hinv.slot1 c hc
      · intro c hc
        rw [hstable c (Or.inr (Or.inr (Or.inl hc)))]
        exact hinv.slot2 c hc
      · intro c hc
        rcases List.mem_append.mp hc with h1 | h1
        · rw [hstable c (Or.inr (Or.inr (Or.inr h1)))]
          exact hinv.slot3 c h1
        · rw [List.mem_singleton.mp h1, hfvi, hi3]
  refine ⟨?_, ?_, ?_, hslots.1, hslots.2.1, hslots.2.2.1, hslots.2.2.2,
    ?_, ?_, ?_, ?_, ?_, ?_, ?_⟩
  · rw [List.map_append]
    simp only [List.map_cons, List.map_nil]
    simp [List.nodup_append, hinv.keys_nodup, hikeys]
  · intro c hc
    rcases pushSlot_mem hpush c hc with h1 | h1
    · rcases hinv.bucket_stamp c h1 with h2 | h2
      · exact Or.inl h2
      · exact Or.inr (stamped_append.mpr (Or.inl h2))
    · exact Or.inr (stamped_append.mpr (Or.inr h1))
  · intro c hc
    rcases pushSlot_mem hpush c hc with h1 | h1
    · exact hinv.bucket_pass c h1
    · exact h1 ▸ hipass
  · intro hns
    have hns2 : ¬ stamped v s ∧ s ≠ i := by
      constructor
      · exact fun h => hns (stamped_append.mpr (Or.inl h))
      · exact fun h => hns (stamped_append.mpr (Or.inr h))
    intro hmem
    rcases pushSlot_mem hpush s hmem with h1 | h1
    · exact hinv.start_fresh hns2.1 h1
    · exact hns2.2 h1
  · intro q hq
    rcases List.mem_append.mp hq with h1 | h1
    · exact hinv.stamped_pass q h1
    · rw [List.mem_singleton.mp h1]
      exact hipass
  · intro q hq
    rcases List.mem_append.mp hq with h1 | h1
    · exact hinv.rpath_nodup q h1
    · rw [List.mem_singleton.mp h1]
      simp only [BEntry.rpath]
      exact List.nodup_cons.mpr ⟨hintail, htail_nodup⟩
  · intro q hq c hc
    rcases List.mem_append.mp hq with h1 | h1
    · exact stamped_append.mpr (Or.inl (hinv.rpath_stamped q h1 c hc))
    · rw [List.mem_singleton.mp h1] at hc
      simp only [BEntry.rpath, List.mem_cons] at hc
      rcases hc with h2 | h2
      · exact stamped_append.mpr (Or.inr h2)
      · exact stamped_append.mpr (Or.inl (htail_stamped c h2))
  · intro q hq
    rcases List.mem_append.mp hq with h1 | h1
    · rcases hinv.closed_exp q h1 with h2 | h2 | h2
      · exact Or.inl h2
      · exact Or.inr (Or.inl (pushSlot_mono hpush _ h2))
      · exact Or.inr (Or.inr (fun j hj => stamped_append.mpr (Or.inl (h2 j hj))))
    · rw [List.mem_singleton.mp h1]
      exact Or.inr (Or.inl (pushSlot_mem_self hpush))
  · rcases hinv.start_exp with h1 | h1 | h1
    · exact Or.inl h1
    · exact Or.inr (Or.inl (pushSlot_mono hpush _ h1))
    · exact Or.inr (Or.inr (fun j hj => stamped_append.mpr (Or.inl (h1 j hj))))
  · intro hse
    rcases stamped_append.mp hse with h1 | h1
    · exact pushSlot_mono hpush _ (hinv.end_open h1)
    · exact h1 ▸ pushSlot_mem_self hpush

end Main

/-- The expansion loop on a shared scenario: it never hits the
out-of-ring `TypeError`, preserves the invariant, and stamps every
neighbour of the expanded cell. -/
theorem expandNeighbors_shared (a : AStar.Grid) (hs : sharedScenario a = true)
    (s e cur : Coord) (hcpass : Passable a cur)
    (curCost : Int) (curRpath : List Coord) (base : Int)
    (hcost : Main.get_cost cur.1 cur.2 e.1 e.2 + curCost = base) :
    ∀ (ns : List Coord) (o : Main.BOpens) (v : List (Coord × Main.BEntry)),
      (∀ i ∈ ns, i ∈ Main.nodeNeighbors a.mapSize a.mapSize a.obstacles cur) →
      (cur = s ∨ (curRpath.Nodup ∧ ∀ c ∈ curRpath, Main.stamped v c)) →
      Main.EInv a s e cur base o v →
      ∃ o2 v2,
        Main.expandNeighbors s e cur curCost curRpath base ns o v = .ok (o2, v2) ∧
        Main.EInv a s e cur base o2 v2 ∧
        (∀ c, Main.stamped v c → Main.stamped v2 c) ∧
        (∀ i ∈ ns, Main.stamped v2 i) ∧
        (∀ c, Main.inBuckets o c → Main.inBuckets o2 c) := by
  intro ns
  induction ns with
  | nil =>
    intro o v _ _ hinv
    exact ⟨o, v, rfl, hinv, fun c hc => hc, by simp, fun c hc => hc⟩
  | cons i rest ih =>
    intro o v hns hrp hinv
    by_cases hstamped : (v.find? (fun p => p.1 = i)).isSome = true
    · obtain ⟨o2, v2, heq, hinv2, hmono, hns2, hbmono⟩ :=
        ih o v (fun j hj => hns j (List.mem_cons_of_mem _ hj)) hrp hinv
      refine ⟨o2, v2, ?_, hinv2, hmono, ?_, hbmono⟩
      · unfold Main.expandNeighbors
        rw [if_pos hstamped]
        exact heq
      · intro j hj
        rcases List.mem_cons.mp hj with h1 | h1
        · exact h1 ▸ hmono i hstamped
        · exact hns2 j h1
    · have hinot : ¬ Main.stamped v i := hstamped
      have himem : i ∈ Main.nodeNeighbors a.mapSize a.mapSize a.obstacles cur :=
        hns i (List.mem_cons_self i rest)
      have hipass : Passable a i := Main.nodeNeighbors_passable hcpass himem
      have hstep := get_cost_step hs hcpass e himem
      have hidx : Main.get_cost i.1 i.2 e.1 e.2 + (curCost + 1) - base = 0 ∨
          Main.get_cost i.1 i.2 e.1 e.2 + (curCost + 1) - base = 2 := by
        rcases hstep with h | h
        · exact Or.inr (by omega)
        · exact Or.inl (by omega)
      have htail : (if cur = s then ([] : List Coord) else curRpath).Nodup ∧
          ∀ c ∈ (if cur = s then ([] : List Coord) else curRpath),
            Main.stamped v c := by
        by_cases hcs : cur = s
        · rw [if_pos hcs]
          exact ⟨List.nodup_nil, by simp⟩
        · rw [if_neg hcs]
          rcases hrp with h1 | h1
          · exact absurd h1 hcs
          · exact h1
      have hfv : Main.get_cost i.1 i.2 e.1 e.2 + (curCost + 1) =
          base + (Main.get_cost i.1 i.2 e.1 e.2 + (curCost + 1) - base) := by
        ring
      rcases hidx with h0 | h2
      · have hpush : Main.pushSlot o
            (Main.get_cost i.1 i.2 e.1 e.2 + (curCost + 1) - base) i =
            some { o with b0 := o.b0 ++ [i] } := by
          rw [h0]
          exact Main.pushSlot_zero o i
        have hinv3 := Main.einv_push hinv hipass hinot htail.1 htail.2 hpush hfv
        obtain ⟨o2, v2, heq, hinv2, hmono, hns2, hbmono⟩ :=
          ih { o with b0 := o.b0 ++ [i] }
            (v ++ [(i, ⟨curCost + 1, i :: (if cur = s then [] else curRpath)⟩)])
            (fun j hj => hns j (List.mem_cons_of_mem _ hj))
            (by
              rcases hrp with h1 | h1
              · exact Or.inl h1
              · exact Or.inr ⟨h1.1,
                  fun c hc => Main.stamped_append.mpr (Or.inl (h1.2 c hc))⟩)
            hinv3
        refine ⟨o2, v2, ?_, hinv2, ?_, ?_, ?_⟩
        · unfold Main.expandNeighbors
          rw [if_neg hstamped]
          dsimp only
          rw [hpush]
          exact heq
        · intro c hc
          exact hmono c (Main.stamped_append.mpr (Or.inl hc))
        · intro j hj
          rcases List.mem_cons.mp hj with h1 | h1
          · exact h1 ▸ hmono i (Main.stamped_append.mpr (Or.inr rfl))
          · exact hns2 j h1
        · intro c hc
          exact hbmono c (Main.pushSlot_mono hpush c hc)
      · have hpush : Main.pushSlot o
            (Main.get_cost i.1 i.2 e.1 e.2 + (curCost + 1) - base) i =
            some { o with b2 := o.b2 ++ [i] } := by
          rw [h2]
          exact Main.pushSlot_two o i
        have hinv3 := Main.einv_push hinv hipass hinot htail.1 htail.2 hpush hfv
        obtain ⟨o2, v2, heq, hinv2, hmono, hns2, hbmono⟩ :=
          ih { o with b2 := o.b2 ++ [i] }
            (v ++ [(i, ⟨curCost + 1, i :: (if cur = s then [] else curRpath)⟩)])
            (fun j hj => hns j (List.mem_cons_of_mem _ hj))
            (by
              rcases hrp with h1 | h1
              · exact Or.inl h1
              · exact Or.inr ⟨h1.1,
                  fun c hc => Main.stamped_append.mpr (Or.inl (h1.2 c hc))⟩)
            hinv3
        refine ⟨o2, v2, ?_, hinv2, ?_, ?_, ?_⟩
        · unfold Main.expandNeighbors
          rw [if_neg hstamped]
          dsimp only
          rw [hpush]
          exact heq
        · intro c hc
          exact hmono c (Main.stamped_append.mpr (Or.inl hc))
        · intro j hj
          rcases List.mem_cons.mp hj with h1 | h1
          · exact h1 ▸ hmono i (Main.stamped_append.mpr (Or.inr rfl))
          · exact hns2 j h1
        · intro c hc
          exact hbmono c (Main.pushSlot_mono hpush c hc)

namespace Main

/-- The invariant of the bucket-search main loop on a shared scenario. -/
structure SInv (a : AStar.Grid) (s e : Coord) (base : Int) (o : BOpens)
    (v : List (Coord × BEntry)) : Prop where
  keys_nodup : (v.map Prod.fst).Nodup
  bucket_stamp : ∀ c, inBuckets o c → c = s ∨ stamped v c
  bucket_pass : ∀ c, inBuckets o c → Passable a c
  slot0 : ∀ c ∈ o.b0, fval v e c = base
  slot1 : ∀ c ∈ o.b1, fval v e c = base + 1
  slot2 : ∀ c ∈ o.b2, fval v e c = base + 2
  slot3 : ∀ c ∈ o.b3, fval v e c = base + 3
  start_fresh : ¬ stamped v s →
    (o.b0 = [s] ∧ o.b1 = [] ∧ o.b2 = [] ∧ o.b3 = []) ∨ ¬ inBuckets o s
  stamped_pass : ∀ p ∈ v, Passable a p.1
  rpath_nodup : ∀ p ∈ v, p.2.rpath.Nodup
  rpath_stamped : ∀ p ∈ v, ∀ c ∈ p.2.rpath, stamped v c
  closed_exp : ∀ p ∈ v, inBuckets o p.1 ∨
    ∀ i ∈ nodeNeighbors a.mapSize a.mapSize a.obstacles p.1, stamped v i
  start_exp : inBuckets o s ∨
    ∀ i ∈ nodeNeighbors a.mapSize a.mapSize a.obstacles s, stamped v i
  end_open : stamped v e → inBuckets o e

/-- The invariant holds for the initial state of `search`. -/
theorem sinv_init (a : AStar.Grid) (s e : Coord) (hsp : Passable a s) :
    SInv a s e (get_cost s.1 s.2 e.1 e.2) ⟨[s], [], [], []⟩ [] := by
  have hmem : ∀ c, inBuckets ⟨[s], [], [], []⟩ c → c = s := by
    intro c hc
    rcases hc with hc | hc | hc | hc
    · simpa using hc
    · exact absurd hc (by simp)
    · exact absurd hc (by simp)
    · exact absurd hc (by simp)
  refine ⟨by simp, fun c hc => Or.inl (hmem c hc),
    fun c hc => (hmem c hc) ▸ hsp, ?_, by simp, by simp, by simp,
    fun _ => Or.inl ⟨rfl, rfl, rfl, rfl⟩, by simp, by simp, by simp, by simp,
    Or.inl (Or.inl (by simp)), ?_⟩
  · intro c hc
    have hcs : c = s := by simpa using hc
    subst hcs
    show get_cost c.1 c.2 e.1 e.2 + (lookupEntry [] c).cost = _
    show get_cost c.1 c.2 e.1 e.2 + (0 : Int) = _
    ring
  · intro h
    exact absurd h (by simp [stamped])

/-- Popping the last cell of bucket 0 turns the loop invariant into the
expansion invariant relative to the popped cell. -/
theorem sinv_pop {a : AStar.Grid} {s e : Coord} {base : Int} {o : BOpens}
    {v : List (Coord × BEntry)} {cur : Coord}
    (hinv : SInv a s e base o v)
    (hlast : o.b0.getLast? = some cur) (hcure : cur ≠ e) :
    EInv a s e cur base { o with b0 := o.b0.dropLast } v := by
  have hsplit : o.b0.dropLast ++ [cur] = o.b0 :=
    List.dropLast_append_getLast? cur hlast
  have hsub : ∀ c, inBuckets { o with b0 := o.b0.dropLast } c → inBuckets o c := by
    intro c hc
    rcases hc with hc | hc | hc | hc
    · exact Or.inl ((List.dropLast_sublist o.b0).mem hc)
    · exact Or.inr (Or.inl hc)
    · exact Or.inr (Or.inr (Or.inl hc))
    · exact Or.inr (Or.inr (Or.inr hc))
  have hkeep : ∀ c, inBuckets o c → c ≠ cur →
      inBuckets { o with b0 := o.b0.dropLast } c := by
    intro c hc hne
    rcases hc with hc | hc | hc | hc
    · rw [← hsplit] at hc
      rcases List.mem_append.mp hc with h1 | h1
      · exact Or.inl h1
      · exact absurd (List.mem_singleton.mp h1) hne
    · exact Or.inr (Or.inl hc)
    · exact Or.inr (Or.inr (Or.inl hc))
    · exact Or.inr (Or.inr (Or.inr hc))
  refine ⟨hinv.keys_nodup, fun c hc => hinv.bucket_stamp c (hsub c hc),
    fun c hc => hinv.bucket_pass c (hsub c hc),
    fun c hc => hinv.slot0 c ((List.dropLast_sublist o.b0).mem hc),
    hinv.slot1, hinv.slot2, hinv.slot3, ?_, hinv.stamped_pass,
    hinv.rpath_nodup, hinv.rpath_stamped, ?_, ?_, ?_⟩
  · intro hns hmem
    rcases hinv.start_fresh hns with ⟨h0, h1, h2, h3⟩ | h1
    · rcases hmem with hc | hc | hc | hc
      · rw [h0] at hc
        exact absurd hc (by simp)
      · exact absurd hc (by rw [h1]; simp)
      · exact absurd hc (by rw [h2]; simp)
      · exact absurd hc (by rw [h3]; simp)
    · exact h1 (hsub s hmem)
  · intro p hp
    by_cases hpc : p.1 = cur
    · exact Or.inl hpc
    · rcases hinv.closed_exp p hp with h1 | h1
      · exact Or.inr (Or.inl (hkeep p.1 h1 hpc))
      · exact Or.inr (Or.inr h1)
  · by_cases hsc : s = cur
    · exact Or.inl hsc
    · rcases hinv.start_exp with h1 | h1
      · exact Or.inr (Or.inl (hkeep s h1 hsc))
      · exact Or.inr (Or.inr h1)
  · intro hse
    exact hkeep e (hinv.end_open hse) (fun h => hcure h.symm)

/-- Once every neighbour of the expanded cell is stamped, the expansion
invariant reverts to the loop invariant. -/
theorem einv_post {a : AStar.Grid} {s e cur : Coord} {base : Int} {o : BOpens}
    {v : List (Coord × BEntry)} (hinv : EInv a s e cur base o v)
    (hns : ∀ i ∈ nodeNeighbors a.mapSize a.mapSize a.obstacles cur, stamped v i) :
    SInv a s e base o v := by
  refine ⟨hinv.keys_nodup, hinv.bucket_stamp, hinv.bucket_pass, hinv.slot0,
    hinv.slot1, hinv.slot2, hinv.slot3,
    fun h => Or.inr (hinv.start_fresh h), hinv.stamped_pass,
    hinv.rpath_nodup, hinv.rpath_stamped, ?_, ?_, hinv.end_open⟩
  · intro p hp
    rcases hinv.closed_exp p hp with h1 | h1 | h1
    · exact Or.inr (h1 ▸ hns)
    · exact Or.inl h1
    · exact Or.inr h1
  · rcases hinv.start_exp with h1 | h1 | h1
    · exact Or.inr (h1 ▸ hns)
    · exact Or.inl h1
    · exact Or.inr h1

/-- Rotating the ring preserves the loop invariant with the incremented
base cost. -/
theorem sinv_rotate {a : AStar.Grid} {s e : Coord} {base : Int} {o : BOpens}
    {v : List (Coord × BEntry)} (hinv : SInv a s e base o v)
    (hb0 : o.b0 = []) :
    SInv a s e (base + 1) ⟨o.b1, o.b2, o.b3, []⟩ v := by
  have hsub : ∀ c, inBuckets ⟨o.b1, o.b2, o.b3, []⟩ c → inBuckets o c := by
    intro c hc
    rcases hc with hc | hc | hc | hc
    · exact Or.inr (Or.inl hc)
    · exact Or.inr (Or.inr (Or.inl hc))
    · exact Or.inr (Or.inr (Or.inr hc))
    · exact absurd hc (by simp)
  have hkeep : ∀ c, inBuckets o c → inBuckets ⟨o.b1, o.b2, o.b3, []⟩ c := by
    intro c hc
    rcases hc with hc | hc | hc | hc
    · rw [hb0] at hc
      exact absurd hc (by simp)
    · exact Or.inl hc
    · exact Or.inr (Or.inl hc)
    · exact Or.inr (Or.inr (Or.inl hc))
  refine ⟨hinv.keys_nodup, fun c hc => hinv.bucket_stamp c (hsub c hc),
    fun c hc => hinv.bucket_pass c (hsub c hc), ?_, ?_, ?_, by simp,
    ?_, hinv.stamped_pass, hinv.rpath_nodup, hinv.rpath_stamped, ?_, ?_, ?_⟩
  · intro c hc
    rw [hinv.slot1 c hc]
  · intro c hc
    rw [hinv.slot2 c hc]
    ring
  · intro c hc
    rw [hinv.slot3 c hc]
    ring
  · intro hns
    rcases hinv.start_fresh hns with ⟨h0, _⟩ | h1
    · exact absurd (h0 ▸ hb0) (by simp)
    · exact Or.inr (fun hmem => h1 (hsub s hmem))
  · intro p hp
    rcases hinv.closed_exp p hp with h1 | h1
    · exact Or.inl (hkeep p.1 h1)
    · exact Or.inr h1
  · rcases hinv.start_exp with h1 | h1
    · exact Or.inl (hkeep s h1)
    · exact Or.inr h1
  · intro hse
    exact hkeep e (hinv.end_open hse)

end Main

/-- The bucket-search main loop on a shared scenario: it never throws,
a `null` return means the goal is unreachable on the `createNodes`
graph, and a returned reverse path is duplicate-free and stays on
passable cells. -/
theorem searchLoop_shared (a : AStar.Grid) (hs : sharedScenario a = true)
    (s e : Coord) (hne : s ≠ e) :
    ∀ (fuel : ℕ) (o : Main.BOpens) (base : Int) (v : List (Coord × Main.BEntry)),
      Main.SInv a s e base o v →
      ∀ r, Main.searchLoop a.mapSize a.mapSize a.obstacles s e fuel o base v =
          some r →
        r ≠ .error () ∧
        (r = .ok none → ¬ Main.ReachB a.mapSize a.mapSize a.obstacles s e) ∧
        (∀ p, r = .ok (some p) → p.Nodup ∧ ∀ c ∈ p, Passable a c) := by
  intro fuel
  induction fuel with
  | zero =>
    intro o base v _ r hr
    exact absurd hr (by simp [Main.searchLoop])
  | succ fuel ih =>
    intro o base v hinv r hr
    unfold Main.searchLoop at hr
    by_cases hempty : o.b0.isEmpty ∧ o.b1.isEmpty ∧ o.b2.isEmpty ∧ o.b3.isEmpty
    · rw [if_pos hempty] at hr
      have hreq : r = .ok none := (Option.some.inj hr).symm
      subst hreq
      have hnob : ∀ c, ¬ Main.inBuckets o c := by
        intro c hc
        have h0 : o.b0 = [] := by simpa using hempty.1
        have h1 : o.b1 = [] := by simpa using hempty.2.1
        have h2 : o.b2 = [] := by simpa using hempty.2.2.1
        have h3 : o.b3 = [] := by simpa using hempty.2.2.2
        rcases hc with hc | hc | hc | hc
        · exact absurd (h0 ▸ hc) (by simp)
        · exact absurd (h1 ▸ hc) (by simp)
        · exact absurd (h2 ▸ hc) (by simp)
        · exact absurd (h3 ▸ hc) (by simp)
      refine ⟨by simp, fun _ hreach => ?_, fun p hp => absurd hp (by simp)⟩
      have hclosed : ∀ c, (c = s ∨ Main.stamped v c) →
          ∀ d ∈ Main.nodeNeighbors a.mapSize a.mapSize a.obstacles c,
            c = s ∨ Main.stamped v d → True := fun _ _ _ _ _ => trivial
      have hS : ∀ c, (c = s ∨ Main.stamped v c) →
          ∀ d ∈ Main.nodeNeighbors a.mapSize a.mapSize a.obstacles c,
            d = s ∨ Main.stamped v d := by
        intro c hc d hd
        rcases hc with hc | hc
        · subst hc
          rcases hinv.start_exp with h1 | h1
          · exact absurd h1 (hnob c)
          · exact Or.inr (h1 d hd)
        · obtain ⟨p, hp, hpc⟩ := Main.stamped_elim hc
          rcases hinv.closed_exp p hp with h1 | h1
          · exact absurd h1 (hpc ▸ hnob c)
          · exact Or.inr (h1 d (hpc ▸ hd))
      have hend : e = s ∨ Main.stamped v e :=
        Main.reachB_closed hS (Or.inl rfl) hreach
      rcases hend with h1 | h1
      · exact hne h1.symm
      · exact hnob e (hinv.end_open h1)
    · rw [if_neg hempty] at hr
      cases hlast : o.b0.getLast? with
      | none =>
        rw [hlast] at hr
        have hb0 : o.b0 = [] := List.getLast?_eq_none_iff.mp hlast
        exact ih _ _ _ (Main.sinv_rotate hinv hb0) r hr
      | some cur =>
        rw [hlast] at hr
        dsimp only at hr
        have hcur0 : cur ∈ o.b0 := List.mem_of_getLast?_eq_some hlast
        by_cases hcure : cur = e
        · rw [if_pos hcure] at hr
          have hreq : r = .ok (some (Main.lookupEntry v cur).rpath) :=
            (Option.some.inj hr).symm
          subst hreq
          refine ⟨by simp, fun h => absurd h (by simp), fun p hp => ?_⟩
          have hpe : p = (Main.lookupEntry v cur).rpath := by
            have := Except.ok.inj hp
            exact (Option.some.inj this).symm
          have hstamped : Main.stamped v cur := by
            rcases hinv.bucket_stamp cur (Or.inl hcur0) with h1 | h1
            · exact absurd (h1.symm.trans hcure) hne
            · exact h1
          cases hf : v.find? (fun q => q.1 = cur) with
          | none =>
            have : (v.find? (fun q => q.1 = cur)).isSome = true := hstamped
            rw [hf] at this
            exact absurd this (by simp)
          | some q =>
            have hqv : q ∈ v := List.mem_of_find?_eq_some hf
            have hlook : Main.lookupEntry v cur = q.2 := by
              unfold Main.lookupEntry
              rw [hf]
            subst hpe
            rw [hlook]
            refine ⟨hinv.rpath_nodup q hqv, ?_⟩
            intro c hc
            obtain ⟨q2, hq2, hq2c⟩ :=
              Main.stamped_elim (hinv.rpath_stamped q hqv c hc)
            exact hq2c ▸ hinv.stamped_pass q2 hq2
        · rw [if_neg hcure] at hr
          have hcpass : Passable a cur := hinv.bucket_pass cur (Or.inl hcur0)
          have hcost : Main.get_cost cur.1 cur.2 e.1 e.2 +
              (Main.lookupEntry v cur).cost = base := hinv.slot0 cur hcur0
          have heinv := Main.sinv_pop hinv hlast hcure
          have hrp : cur = s ∨ ((Main.lookupEntry v cur).rpath.Nodup ∧
              ∀ c ∈ (Main.lookupEntry v cur).rpath, Main.stamped v c) := by
            by_cases hcs : cur = s
            · exact Or.inl hcs
            · rcases hinv.bucket_stamp cur (Or.inl hcur0) with h1 | h1
              · exact absurd h1 hcs
              · cases hf : v.find? (fun q => q.1 = cur) with
                | none =>
                  have h2 : (v.find? (fun q => q.1 = cur)).isSome = true := h1
                  rw [hf] at h2
                  exact absurd h2 (by simp)
                | some q =>
                  have hqv : q ∈ v := List.mem_of_find?_eq_some hf
                  have hlook : Main.lookupEntry v cur = q.2 := by
                    unfold Main.lookupEntry
                    rw [hf]
                  rw [hlook]
                  exact Or.inr ⟨hinv.rpath_nodup q hqv, hinv.rpath_stamped q hqv⟩
          obtain ⟨o3, v2, heq, hinv3, hmono, hns2, hbmono⟩ :=
            expandNeighbors_shared a hs s e cur hcpass
              (Main.lookupEntry v cur).cost (Main.lookupEntry v cur).rpath base
              hcost (Main.nodeNeighbors a.mapSize a.mapSize a.obstacles cur)
              { o with b0 := o.b0.dropLast } v (fun i hi => hi) hrp heinv
          rw [heq] at hr
          exact ih o3 base v2 (Main.einv_post hinv3 hns2) r hr

/-- A path chain on the `createNodes` graph through passable cells is
also a hexagonal chain on a shared scenario. -/
theorem chain_bucket_to_hex {a : AStar.Grid} (hs : sharedScenario a = true) :
    ∀ l : List Coord, (∀ c ∈ l, Passable a c) →
      l.Chain' (fun c d =>
        d ∈ Main.nodeNeighbors a.mapSize a.mapSize a.obstacles c) →
      l.Chain' (fun c d => d ∈ AStar.neighbors a c) := by
  intro l
  induction l with
  | nil => intro _ _; exact List.chain'_nil
  | cons c t iht =>
    intro hpass hchain
    cases t with
    | nil => simp
    | cons d t2 =>
      rw [List.chain'_cons] at hchain ⊢
      exact ⟨(sharedScenario_spec hs (hpass c (by simp)) d).mpr hchain.1,
        iht (fun x hx => hpass x (List.mem_cons_of_mem c hx)) hchain.2⟩

/-- The two components of a valid hexagonal path: passable cells and a
hexagonal chain. -/
theorem isHexPath_parts {a : AStar.Grid} {l : List Coord}
    (h : AStar.isHexPath a l = true) :
    (∀ c ∈ l, Passable a c) ∧
    l.Chain' (fun c d => d ∈ AStar.neighbors a c) := by
  unfold AStar.isHexPath at h
  rw [Bool.and_eq_true] at h
  refine ⟨?_, (AStar.chainOk_iff_chain a l).mp h.2⟩
  intro c hc
  have := List.all_eq_true.mp h.1 c hc
  exact isValidPosition_iff.mp (by simpa using this)

/-- Everything the A* loop guarantees about a returned path from a
passable start: endpoints, validity, and duplicate-freedom. -/
theorem astar_path_facts (a : AStar.Grid) (s e : Coord) (hsp : Passable a s)
    {p : List (Coord × Int)}
    (hloop : AStar.searchLoop a e (AStar.loopFuel a) [AStar.startNode e s] [] =
      some (some p)) :
    (p.map Prod.fst).head? = some s ∧ (p.map Prod.fst).getLast? = some e ∧
    AStar.isHexPath a (p.map Prod.fst) = true ∧ (p.map Prod.fst).Nodup := by
  have hinv := AStar.loopInv_init a s e (isValidPosition_iff.mpr hsp)
  obtain ⟨h1, h2, h3⟩ := AStar.searchLoop_path_valid a s e _ _ _ hinv p hloop
  refine ⟨h1, h2, h3, ?_⟩
  refine AStar.searchLoop_path_nodup a e _ _ [] ?_ p hloop
  intro n hn
  rw [List.mem_singleton.mp hn]
  constructor
  · show (((AStar.startNode e s).path).map Prod.fst).Nodup
    simp [AStar.startNode]
  · intro c hc
    refine Or.inl ?_
    have hcs : c = s := by simpa [AStar.startNode] using hc
    simp [hcs, AStar.startNode, AStar.Node.coord]

namespace Main

/-- `BInv` holds for the initial state of `search`. -/
theorem binv_init (G : Coord → List Coord) (s : Coord) :
    BInv G s ⟨[s], [], [], []⟩ [] := by
  constructor
  · intro c hc
    rcases hc with hc | hc | hc | hc
    · exact Or.inl (by simpa using hc)
    · exact absurd hc (by simp)
    · exact absurd hc (by simp)
    · exact absurd hc (by simp)
  · simp

end Main

/-- C9: on every uniform-unit-cost scenario supported by both
strategies — a square board on which the hexagonal adjacency of `AStar`
and the `createNodes` adjacency of the bucket variant induce the same
passable-cell graph — with passable start and end, whenever the bucket
loop's iteration budget lets it deliver a result: the bucket search
does not throw, it finds a path exactly when `findPath` does, and the
two paths have the same edge count — the A* path lists every cell from
start to end while the bucket path runs from end back to, but
excluding, start, so it carries exactly one cell fewer; for
start = end both return the one-cell trivial path. -/
theorem search_findPath_agree (a : AStar.Grid) (hshared : sharedScenario a = true)
    (s e : Coord) (hsp : Passable a s) (hep : Passable a e)
    (bfuel : ℕ) (rb : Except Unit (Option (List Coord)))
    (hrb : Main.search a.mapSize a.mapSize a.obstacles s e bfuel = some rb) :
    rb ≠ .error () ∧
    ∃ ra : Option (List (Coord × Int)),
      AStar.findPath a s e = .ok ra ∧
      (ra = none ↔ rb = .ok none) ∧
      (s ≠ e → ∀ p q, ra = some p → rb = .ok (some q) →
        p.length = q.length + 1) ∧
      (s = e → ra = some [(s, 0)] ∧ rb = .ok (some [s])) := by
  by_cases hse : s = e
  · subst hse
    have hrbval : rb = .ok (some [s]) := by
      match bfuel, hrb with
      | 0, hrb => exact absurd hrb (by simp [Main.search, Main.searchLoop])
      | bfuel + 1, hrb =>
        unfold Main.search Main.searchLoop at hrb
        simp [Main.lookupEntry] at hrb
        exact hrb.symm
    have hra := AStar.findPath_self a s
      ((AStar.isValidCoordinate_iff a s.1 s.2).mpr
        ⟨hsp.1, hsp.2.1, hsp.2.2.1, hsp.2.2.2.1⟩)
      hsp.2.2.2.2
    refine ⟨by rw [hrbval]; simp, some [(s, 0)], hra, ?_, ?_,
      fun _ => ⟨rfl, hrbval⟩⟩
    · constructor
      · intro h
        exact absurd h (by simp)
      · intro h
        rw [hrbval] at h
        exact absurd h (by simp)
    · intro hne
      exact absurd rfl hne
  · have hne : s ≠ e := hse
    have hvs : AStar.isValidCoordinate a s.1 s.2 = true :=
      (AStar.isValidCoordinate_iff a s.1 s.2).mpr
        ⟨hsp.1, hsp.2.1, hsp.2.2.1, hsp.2.2.2.1⟩
    have hve : AStar.isValidCoordinate a e.1 e.2 = true :=
      (AStar.isValidCoordinate_iff a e.1 e.2).mpr
        ⟨hep.1, hep.2.1, hep.2.2.1, hep.2.2.2.1⟩
    have hos : s ∉ a.obstacles := hsp.2.2.2.2
    have hoe : e ∉ a.obstacles := hep.2.2.2.2
    have hloopinv := AStar.loopInv_init a s e (isValidPosition_iff.mpr hsp)
    have hterm := AStar.searchLoop_ne_none a s e (AStar.loopFuel a)
      [AStar.startNode e s] [] hloopinv (by unfold AStar.loopFuel; omega)
    cases hloop : AStar.searchLoop a e (AStar.loopFuel a)
        [AStar.startNode e s] [] with
    | none => exact absurd hloop hterm
    | some ro =>
      have hfp : AStar.findPath a s e = .ok ro := by
        unfold AStar.findPath
        rw [if_neg (by simp [hvs]), if_neg (by simp [hve]),
            if_neg (by simp [hos]), if_neg (by simp [hoe]), hloop]
        rfl
      have hrb2 : Main.searchLoop a.mapSize a.mapSize a.obstacles s e bfuel
          ⟨[s], [], [], []⟩ (Main.get_cost s.1 s.2 e.1 e.2) [] = some rb := hrb
      obtain ⟨hberr, hbnull, hbpath⟩ := searchLoop_shared a hshared s e hne
        bfuel _ _ _ (Main.sinv_init a s e hsp) rb hrb2
      have hforward : ∀ p0, ro = some p0 → AStar.Reach a s e := by
        intro p0 hp0
        have hloop2 : AStar.searchLoop a e (AStar.loopFuel a)
            [AStar.startNode e s] [] = some (some p0) := by rw [hloop, hp0]
        obtain ⟨hh, hl, hx, -⟩ := astar_path_facts a s e hsp hloop2
        obtain ⟨-, hchain⟩ := isHexPath_parts hx
        exact AStar.chain_reach a _ hchain s e hh hl
      have hbackB : ∀ q, rb = .ok (some q) →
          Main.ReachB a.mapSize a.mapSize a.obstacles s e := by
        intro q hq
        rcases Main.searchLoop_characterisation a.mapSize a.mapSize a.obstacles
            s e hne bfuel ⟨[s], [], [], []⟩ (Main.get_cost s.1 s.2 e.1 e.2) []
            (Main.binv_init _ s) rb hrb2 with h1 | h1 |
            ⟨q2, h1, hqhead, hqstart, hqchain⟩
        · rw [h1] at hq
          exact absurd hq (by simp)
        · rw [h1] at hq
          exact absurd hq (by simp)
        · have hq2 : q2 = q := by
            rw [h1] at hq
            exact Option.some.inj (Except.ok.inj hq)
          subst hq2
          have hchain2 := (Main.revChainOk_iff_chain _ _).mp hqchain
          have hhead2 : (q2 ++ [s]).head? = some e := by
            cases q2 with
            | nil => exact absurd hqhead (by simp)
            | cons c t => simpa using hqhead
          exact Main.revChain_reachB a.mapSize a.mapSize a.obstacles _ hchain2
            e s hhead2 (List.getLast?_concat q2)
      have hiff : ro = none ↔ rb = .ok none := by
        constructor
        · intro hnone
          have hnoreach : ¬ AStar.Reach a s e := by
            intro hreach
            exact AStar.searchLoop_no_null a s e hreach (AStar.loopFuel a) _ _
              hloopinv (by rw [hloop, hnone])
          have hnoreachB :
              ¬ Main.ReachB a.mapSize a.mapSize a.obstacles s e :=
            fun h => hnoreach ((reach_iff_reachB hshared hsp).mpr h)
          cases rb with
          | error u => cases u; exact absurd rfl hberr
          | ok ob =>
            cases ob with
            | none => rfl
            | some q => exact absurd (hbackB q rfl) hnoreachB
        · intro hoknone
          have hnoreachB := hbnull hoknone
          have hnoreach : ¬ AStar.Reach a s e :=
            fun h => hnoreachB ((reach_iff_reachB hshared hsp).mp h)
          cases hro : ro with
          | none => rfl
          | some p0 => exact absurd (hforward p0 hro) hnoreach
      refine ⟨hberr, ro, hfp, hiff, ?_, fun h => absurd h hse⟩
      intro _ p q hp hq
      have hloop2 : AStar.searchLoop a e (AStar.loopFuel a)
          [AStar.startNode e s] [] = some (some p) := by rw [hloop, hp]
      obtain ⟨hhead, hlast, hhex, hnodup⟩ := astar_path_facts a s e hsp hloop2
      obtain ⟨hpassp, hchainp⟩ := isHexPath_parts hhex
      have hlenp : (((p.map Prod.fst).length : ℤ)) =
          |e.1 - s.1| + |e.2 - s.2| + 1 :=
        walk_length hshared hpassp hchainp hnodup hhead hlast
      obtain ⟨hqnodup, hqpass⟩ := hbpath q hq
      rcases Main.searchLoop_characterisation a.mapSize a.mapSize a.obstacles
          s e hne bfuel ⟨[s], [], [], []⟩ (Main.get_cost s.1 s.2 e.1 e.2) []
          (Main.binv_init _ s) rb hrb2 with h1 | h1 |
          ⟨q2, h1, hqhead, hqstart, hqchain⟩
      · rw [h1] at hq
        exact absurd hq (by simp)
      · rw [h1] at hq
        exact absurd hq (by simp)
      · have hq2 : q2 = q := by
          rw [h1] at hq
          exact Option.some.inj (Except.ok.inj hq)
        subst hq2
        have hql : q2 ≠ [] := by
          intro h
          rw [h] at hqhead
          exact absurd hqhead (by simp)
        have hlnodup : ((q2 ++ [s]).reverse).Nodup := by
          rw [List.nodup_reverse, List.nodup_append]
          exact ⟨hqnodup, by simp, by
            intro x hx hxs
            have : x = s := by simpa using hxs
            exact hqstart (this ▸ hx)⟩
        have hlpass : ∀ c ∈ (q2 ++ [s]).reverse, Passable a c := by
          intro c hc
          rw [List.mem_reverse] at hc
          rcases List.mem_append.mp hc with h2 | h2
          · exact hqpass c h2
          · exact (List.mem_singleton.mp h2) ▸ hsp
        have hlhead : ((q2 ++ [s]).reverse).head? = some s := by
          rw [List.head?_reverse]
          exact List.getLast?_concat q2
        have hllast : ((q2 ++ [s]).reverse).getLast? = some e := by
          rw [List.getLast?_reverse]
          cases q2 with
          | nil => exact absurd rfl hql
          | cons c t => simpa using hqhead
        have hchainB : ((q2 ++ [s]).reverse).Chain'
            (fun c d =>
              d ∈ Main.nodeNeighbors a.mapSize a.mapSize a.obstacles c) := by
          rw [List.chain'_reverse]
          exact (Main.revChainOk_iff_chain _ _).mp hqchain
        have hchainH := chain_bucket_to_hex hshared _ hlpass hchainB
        have hlenq : ((((q2 ++ [s]).reverse).length : ℤ)) =
            |e.1 - s.1| + |e.2 - s.2| + 1 :=
          walk_length hshared hlpass hchainH hlnodup hlhead hllast
        have h3 : ((p.map Prod.fst).length : ℤ) =
            (((q2 ++ [s]).reverse).length : ℤ) := hlenp.trans hlenq.symm
        simp only [List.length_map, List.length_reverse, List.length_append,
          List.length_singleton] at h3
        exact_mod_cast h3

/-- Witness for C9 on a concrete shared scenario: a 3×3 board whose
rows 1 and 2 are obstacles (a single passable row, on which the two
adjacency rules coincide), from (0,0) to (2,0).  The bucket search
returns the reverse path [(2,0),(1,0)] and A* the forward path of three
cells. -/
theorem search_findPath_agree_witness :
    ((.ok (some [((2 : ℤ), (0 : ℤ)), (1, 0)]) :
        Except Unit (Option (List Coord))) ≠ .error ()) ∧
    ∃ ra : Option (List (Coord × Int)),
      AStar.findPath ⟨3, [(0, 1), (1, 1), (2, 1), (0, 2), (1, 2), (2, 2)]⟩
        (0, 0) (2, 0) = .ok ra ∧
      (ra = none ↔ (.ok (some [((2 : ℤ), (0 : ℤ)), (1, 0)]) :
          Except Unit (Option (List Coord))) = .ok none) ∧
      (((0, 0) : Coord) ≠ (2, 0) → ∀ p q, ra = some p →
        (.ok (some [((2 : ℤ), (0 : ℤ)), (1, 0)]) :
          Except Unit (Option (List Coord))) = .ok (some q) →
        p.length = q.length + 1) ∧
      (((0, 0) : Coord) = (2, 0) → ra = some [((0, 0), 0)] ∧
        (.ok (some [((2 : ℤ), (0 : ℤ)), (1, 0)]) :
          Except Unit (Option (List Coord))) = .ok (some [(0, 0)])) :=
  search_findPath_agree ⟨3, [(0, 1), (1, 1), (2, 1), (0, 2), (1, 2), (2, 2)]⟩
    (by decide) (0, 0) (2, 0)
    ⟨by decide, by decide, by decide, by decide, by decide⟩
    ⟨by decide, by decide, by decide, by decide, by decide⟩ 20
    (.ok (some [(2, 0), (1, 0)])) (by decide)

end Development
